import Mathlib

set_option maxRecDepth 8000

/-!
Shallow embedding of the job-orchestration core of the `cargo-ci` repository,
together with proofs settling the specification claims about it.

Components embedded (file references are to the Rust sources):
* `src/modifier_expression.rs` — the modifier boolean-algebra evaluator;
* `src/config/jobs.rs` — the job graph: `topological_sort`,
  `get_transitive_needs`, and the construction-time validation
  (`Jobs::deserialize` / `detect_cycle`);
* `src/commands/run.rs` — the execution scheduler (`run_jobs` / `run_job` /
  `make_command`), with the process-execution collaborator modelled as an
  oracle function.

Rust `HashMap`/`HashSet` iteration order is nondeterministic; the embedding
determinizes it by representing maps and sets as association lists / lists and
iterating in list order.  Machine integers (`usize`) are modelled as `Nat`
with explicit wrap-around modulo `2 ^ 64` where the source can underflow.
-/

namespace CargoCI

/-- Decidable equality for `Except`, used to evaluate concrete runs of the
embedded functions inside `decide`. -/
instance {ε α : Type} [DecidableEq ε] [DecidableEq α] : DecidableEq (Except ε α) := fun x y =>
  match x, y with
  | .ok a, .ok b =>
    if h : a = b then isTrue (by rw [h]) else isFalse (by intro hc; cases hc; exact h rfl)
  | .error a, .error b =>
    if h : a = b then isTrue (by rw [h]) else isFalse (by intro hc; cases hc; exact h rfl)
  | .ok _, .error _ => isFalse (by intro hc; cases hc)
  | .error _, .ok _ => isFalse (by intro hc; cases hc)

namespace ModifierExpression

/-- Tokens of the modifier boolean-expression language
(`src/modifier_expression.rs`, `enum Token`). -/
inductive Token where
  | identifier (name : String)
  | and
  | or
  | not
  | lparen
  | rparen
deriving DecidableEq, Repr

/-- Whitespace characters skipped by the tokenizer (the
`' ' | '\t' | '\n' | '\r'` arm of `tokenize`). -/
def is_whitespace (c : Char) : Bool :=
  c = ' ' || c = '\t' || c = '\n' || c = '\r'

/-- Characters that may start an identifier: the
`'a'..='z' | 'A'..='Z' | '_' | '0'..='9' | '-'` arm of `tokenize`. -/
def is_ident_start (c : Char) : Bool :=
  ('a' ≤ c && c ≤ 'z') || ('A' ≤ c && c ≤ 'Z') || c = '_' || ('0' ≤ c && c ≤ '9') || c = '-'

/-- Characters that may continue an identifier:
`ch.is_alphanumeric() || ch == '_' || ch == '-'` in `tokenize`.
Rust's `char::is_alphanumeric` is Unicode-aware; `Char.isAlphanum` models it
faithfully on the ASCII range, which is all that any theorem below touches
(general theorems restrict identifiers to ASCII characters). -/
def is_ident_continuation (c : Char) : Bool :=
  c.isAlphanum || c = '_' || c = '-'

/-- Tokenizer over the character list of the expression
(`fn tokenize`, src/modifier_expression.rs lines 56-88).  The `Nat` fuel makes
the recursion structural (so that concrete runs reduce); every call consumes
at least one character, so `length + 1` fuel (supplied by `tokenize`) never
runs out. -/
def tokenize_chars : Nat → List Char → Except String (List Token)
  | 0, _ => .error "out of fuel"
  | _, [] => .ok []
  | fuel + 1, c :: rest =>
    if is_whitespace c then tokenize_chars fuel rest
    else if c = '&' then (Token.and :: ·) <$> tokenize_chars fuel rest
    else if c = '|' then (Token.or :: ·) <$> tokenize_chars fuel rest
    else if c = '!' then (Token.not :: ·) <$> tokenize_chars fuel rest
    else if c = '(' then (Token.lparen :: ·) <$> tokenize_chars fuel rest
    else if c = ')' then (Token.rparen :: ·) <$> tokenize_chars fuel rest
    else if is_ident_start c then
      let ident := c :: rest.takeWhile is_ident_continuation
      (Token.identifier (String.mk ident) :: ·) <$>
        tokenize_chars fuel (rest.dropWhile is_ident_continuation)
    else .error s!"Unexpected character: \x27{c}\x27"

/-- Entry point of the tokenizer (`fn tokenize` takes `&str`). -/
def tokenize (expr : String) : Except String (List Token) :=
  tokenize_chars (expr.data.length + 1) expr.data

mutual

/-- Recursive-descent parser, OR level (`fn parse_or`, lowest precedence).
The `Nat` fuel argument makes the mutual recursion structurally terminating;
`parser_fuel` below always provides enough fuel for the token list at hand. -/
def parse_or (tokens : List Token) (modifiers : List String) :
    Nat → Nat → Except String (Bool × Nat)
  | 0, _ => .error "out of fuel"
  | fuel + 1, pos => do
    let (result, pos1) ← parse_and tokens modifiers fuel pos
    parse_or_loop tokens modifiers fuel result pos1
termination_by structural fuel _ => fuel

/-- The `while` loop of `parse_or`: fold further `| and_expr` alternatives. -/
def parse_or_loop (tokens : List Token) (modifiers : List String) :
    Nat → Bool → Nat → Except String (Bool × Nat)
  | 0, _, _ => .error "out of fuel"
  | fuel + 1, result, pos =>
    if h : pos < tokens.length then
      if tokens.get ⟨pos, h⟩ = Token.or then do
        let (right, pos1) ← parse_and tokens modifiers fuel (pos + 1)
        parse_or_loop tokens modifiers fuel (result || right) pos1
      else .ok (result, pos)
    else .ok (result, pos)
termination_by structural fuel _ _ => fuel

/-- AND level (`fn parse_and`, binds tighter than OR). -/
def parse_and (tokens : List Token) (modifiers : List String) :
    Nat → Nat → Except String (Bool × Nat)
  | 0, _ => .error "out of fuel"
  | fuel + 1, pos => do
    let (result, pos1) ← parse_not tokens modifiers fuel pos
    parse_and_loop tokens modifiers fuel result pos1
termination_by structural fuel _ => fuel

/-- The `while` loop of `parse_and`: fold further `& not_expr` factors. -/
def parse_and_loop (tokens : List Token) (modifiers : List String) :
    Nat → Bool → Nat → Except String (Bool × Nat)
  | 0, _, _ => .error "out of fuel"
  | fuel + 1, result, pos =>
    if h : pos < tokens.length then
      if tokens.get ⟨pos, h⟩ = Token.and then do
        let (right, pos1) ← parse_not tokens modifiers fuel (pos + 1)
        parse_and_loop tokens modifiers fuel (result && right) pos1
      else .ok (result, pos)
    else .ok (result, pos)
termination_by structural fuel _ _ => fuel

/-- NOT level (`fn parse_not`).  Note: after consuming `!` the source calls
`parse_primary`, not `parse_not`, so `!` does not nest. -/
def parse_not (tokens : List Token) (modifiers : List String) :
    Nat → Nat → Except String (Bool × Nat)
  | 0, _ => .error "out of fuel"
  | fuel + 1, pos =>
    if h : pos < tokens.length then
      if tokens.get ⟨pos, h⟩ = Token.not then do
        let (result, pos1) ← parse_primary tokens modifiers fuel (pos + 1)
        .ok (!result, pos1)
      else parse_primary tokens modifiers fuel pos
    else parse_primary tokens modifiers fuel pos
termination_by structural fuel _ => fuel

/-- Primary level (`fn parse_primary`): identifier (membership test against
the modifier list) or parenthesized expression. -/
def parse_primary (tokens : List Token) (modifiers : List String) :
    Nat → Nat → Except String (Bool × Nat)
  | 0, _ => .error "out of fuel"
  | fuel + 1, pos =>
    if h : pos < tokens.length then
      match tokens.get ⟨pos, h⟩ with
      | .identifier name => .ok (modifiers.contains name, pos + 1)
      | .lparen => do
        let (result, pos1) ← parse_or tokens modifiers fuel (pos + 1)
        if h1 : pos1 < tokens.length then
          if tokens.get ⟨pos1, h1⟩ = Token.rparen then .ok (result, pos1 + 1)
          else .error "Missing closing parenthesis"
        else .error "Missing closing parenthesis"
      | t => .error s!"Expected identifier or \x27(\x27, got {reprStr t}"
    else .error "Unexpected end of expression"
termination_by structural fuel _ => fuel

end

/-- Fuel that is always sufficient for `parse_or` on the given token list:
each parser call either consumes a token within four nested calls or fails. -/
def parser_fuel (tokens : List Token) : Nat :=
  4 * tokens.length + 8

/-- Top-level evaluation of a modifier expression against the set of defined
modifiers (`pub fn evaluate`, src/modifier_expression.rs lines 34-44). -/
def evaluate (expression : String) (modifiers : List String) : Except String Bool := do
  let tokens ← tokenize expression
  let (result, pos) ← parse_or tokens modifiers (parser_fuel tokens) 0
  if pos < tokens.length then
    .error s!"Unexpected token at position {pos}"
  else
    .ok result

end ModifierExpression

/-- Lookup in an iterator-built variable context.  `Expression::evaluate`
(src/expressions/expression.rs) feeds the variable chain into `evalexpr`'s
`HashMapContext` via `set_value` in iteration order, so a later pair with the
same key overwrites an earlier one; the expression then sees only the final
binding of each name. -/
def lookup_var (vars : List (String × String)) (k : String) : Option String :=
  (vars.reverse.find? (fun p => p.1 == k)).map (fun p => p.2)

/-- Model of `expressions/expression.rs` `Expression`.  The expression
language itself is the external `evalexpr` crate (an out-of-scope
collaborator), so an expression is modelled as an abstract function from the
final variable context to a boolean or an evaluation error. -/
def ExprFn : Type := (String → Option String) → Except String Bool

/-- Model of `expressions/conditional.rs` `Conditional` (untagged
bool-or-expression); the default is `Bool(true)`. -/
inductive Conditional where
  | bool (b : Bool)
  | expr (e : ExprFn)

/-- `Conditional::evaluate`: a literal boolean evaluates to itself, an
expression is evaluated against the flattened variable chain. -/
def Conditional.evaluate (c : Conditional) (vars : List (String × String)) :
    Except String Bool :=
  match c with
  | .bool b => .ok b
  | .expr e => e (lookup_var vars)

/-- Model of `expressions/continue_on_error.rs` `ContinueOnError` (untagged
bool-or-expression); the default is `Bool(false)`. -/
inductive ContinueOnError where
  | bool (b : Bool)
  | expr (e : ExprFn)

/-- `ContinueOnError::evaluate`. -/
def ContinueOnError.evaluate (c : ContinueOnError) (vars : List (String × String)) :
    Except String Bool :=
  match c with
  | .bool b => .ok b
  | .expr e => e (lookup_var vars)

/-- Model of `config/step.rs` `enum Step`: a bare command string or an
extended record. -/
inductive Step where
  | simple (command : String)
  | extended (command : String) (name : Option String) (id : Option String)
      (conditional : Conditional) (continue_on_error : ContinueOnError)
      (per_package : Bool) (vars : List (String × String))

/-- `Step::command`. -/
def Step.command : Step → String
  | .simple cmd => cmd
  | .extended cmd _ _ _ _ _ _ => cmd

/-- `Step::name` (defaults to the command text). -/
def Step.name : Step → String
  | .simple cmd => cmd
  | .extended cmd n _ _ _ _ _ => n.getD cmd

/-- `Step::id`. -/
def Step.id : Step → Option String
  | .simple _ => none
  | .extended _ _ i _ _ _ _ => i

/-- `Step::conditional` (defaults to `Bool(true)`). -/
def Step.conditional : Step → Conditional
  | .simple _ => .bool true
  | .extended _ _ _ c _ _ _ => c

/-- `Step::continue_on_error` (defaults to `Bool(false)`). -/
def Step.continue_on_error : Step → ContinueOnError
  | .simple _ => .bool false
  | .extended _ _ _ _ c _ _ => c

/-- `Step::per_package` (defaults to `false`). -/
def Step.per_package : Step → Bool
  | .simple _ => false
  | .extended _ _ _ _ _ p _ => p

/-- `Step::variables` (empty for a simple step); named `vars` because
`variables` is a reserved word in Lean. -/
def Step.vars : Step → List (String × String)
  | .simple _ => []
  | .extended _ _ _ _ _ _ v => v

/-- Model of `config/job.rs` `Job`.  `needs` is a `HashSet<JobId>` in the
source, modelled as a list in iteration order (nodup where it matters). -/
structure Job where
  name : Option String := none
  steps : List Step := []
  needs : List String := []
  conditional : Conditional := .bool true
  continue_on_error : ContinueOnError := .bool false
  vars : List (String × String) := []

/-- Model of `config/jobs.rs` `Jobs(HashMap<JobId, Job>)` as an association
list; list order stands in for the map's (nondeterministic) iteration
order. -/
abbrev Jobs : Type := List (String × Job)

/-- `HashMap::get` on the job map. -/
def Jobs.get_job (jobs : Jobs) (id : String) : Option Job :=
  (jobs.find? (fun p => p.1 == id)).map (fun p => p.2)

/-- In-degree initialization of `topological_sort` (src/config/jobs.rs lines
24-34): for each requested job, the number of its needs that are also
requested (`needs` is a set, so each distinct need counts once). -/
def init_in_degree (jobs : Jobs) (subset : List String) (id : String) : Nat :=
  match jobs.get_job id with
  | none => 0
  | some job => (job.needs.filter (fun n => subset.contains n)).length

/-- Wrapping decrement of a `usize` degree: `*degree -= 1` compiled in
release mode wraps modulo `2 ^ 64`. -/
def dec_wrap (d : Nat) : Nat := (d + (2 ^ 64 - 1)) % 2 ^ 64

/-- The inner pass of `topological_sort` (src/config/jobs.rs lines 45-55):
after popping `popped`, every job that needs it and is requested has its
in-degree decremented and is enqueued when the degree reaches zero. -/
def process_pop (jobs : Jobs) (subset : List String) (popped : String)
    (st : (String → Nat) × List String) : (String → Nat) × List String :=
  jobs.foldl
    (fun st p =>
      if p.2.needs.contains popped && subset.contains p.1 then
        let d := dec_wrap (st.1 p.1)
        (fun x => if x = p.1 then d else st.1 x, if d = 0 then st.2 ++ [p.1] else st.2)
      else st)
    st

/-- The Kahn worklist loop of `topological_sort` (src/config/jobs.rs lines
38-56), fuelled; a popped id is appended to the output only when it exists in
the job map (the `get_key_value` lookup). -/
def kahn_loop (jobs : Jobs) (subset : List String) :
    Nat → (String → Nat) → List String → List String → List String
  | 0, _, _, sorted => sorted
  | fuel + 1, indeg, queue, sorted =>
    match queue with
    | [] => sorted
    | id :: rest =>
      let sorted1 := if (jobs.get_job id).isSome then sorted ++ [id] else sorted
      let st := process_pop jobs subset id (indeg, rest)
      kahn_loop jobs subset fuel st.1 st.2 sorted1

/-- `Jobs::topological_sort` (src/config/jobs.rs lines 23-59).  The requested
subset is given in its set-iteration order; `subset.length + 1` loop
iterations always suffice because every job is enqueued at most once. -/
def Jobs.topological_sort (jobs : Jobs) (subset : List String) : List String :=
  kahn_loop jobs subset (subset.length + 1)
    (init_in_degree jobs subset)
    (subset.filter (fun id => init_in_degree jobs subset id == 0))
    []

/-- Total number of dependency references in the graph (a fuel bound). -/
def total_needs (jobs : Jobs) : Nat :=
  (jobs.map (fun p => p.2.needs.length)).sum

/-- The BFS worklist loop of `get_transitive_needs` (src/config/jobs.rs lines
72-86), fuelled. -/
def transitive_needs_loop (jobs : Jobs) :
    Nat → List String → List String → List String → List String
  | 0, _, _, result => result
  | fuel + 1, queue, visited, result =>
    match queue with
    | [] => result
    | current :: rest =>
      if visited.contains current then
        transitive_needs_loop jobs fuel rest visited result
      else
        let visited1 := current :: visited
        let result1 := result ++ [current]
        match jobs.get_job current with
        | none => transitive_needs_loop jobs fuel rest visited1 result1
        | some job =>
          transitive_needs_loop jobs fuel
            (rest ++ job.needs.filter (fun n => !(visited1.contains n))) visited1 result1

/-- `Jobs::get_transitive_needs` (src/config/jobs.rs lines 61-89): the
direct-plus-indirect dependency ids of a job in BFS discovery order. -/
def Jobs.get_transitive_needs (jobs : Jobs) (id : String) : List String :=
  let queue0 := match jobs.get_job id with
    | some job => job.needs
    | none => []
  transitive_needs_loop jobs (2 * total_needs jobs + 1) queue0 [] []

/-- Keys of the job map, in iteration order. -/
def keys (jobs : Jobs) : List String :=
  jobs.map (fun p => p.1)

/-- The needs list of a job id (empty when the id is not a key). -/
def needs_of (jobs : Jobs) (id : String) : List String :=
  match jobs.get_job id with
  | none => []
  | some job => job.needs

/-- Reachability along `needs` edges of the job graph. -/
inductive reaches (jobs : Jobs) : String → String → Prop where
  | direct {x y : String} : y ∈ needs_of jobs x → reaches jobs x y
  | step {x y z : String} : y ∈ needs_of jobs x → reaches jobs y z → reaches jobs x z

/-- A job graph is acyclic when no id reaches itself through `needs`. -/
def acyclic (jobs : Jobs) : Prop :=
  ∀ x, ¬ reaches jobs x x

/-- Reachability along `needs` edges through ids that all belong to a given
subset. -/
inductive reaches_within (jobs : Jobs) (subset : List String) : String → String → Prop where
  | direct {x y : String} : x ∈ subset → y ∈ subset → y ∈ needs_of jobs x →
      reaches_within jobs subset x y
  | step {x y z : String} : x ∈ subset → y ∈ subset → y ∈ needs_of jobs x →
      reaches_within jobs subset y z → reaches_within jobs subset x z

/-- Proof apparatus for `topological_sort`: the number of subset dependencies
of `x` that have not been emitted yet. -/
def count_rem (jobs : Jobs) (subset sorted : List String) (x : String) : Nat :=
  ((needs_of jobs x).filter (fun n => subset.contains n && !(sorted.contains n))).length

/-- Proof apparatus for `topological_sort`: every element of `l` appears
strictly after all of its direct subset needs. -/
def ordered_by_needs (jobs : Jobs) (subset l : List String) : Prop :=
  ∀ x n, x ∈ l → n ∈ needs_of jobs x → n ∈ subset → l.indexOf n < l.indexOf x

/-- Proof apparatus for `topological_sort`: the invariant of the Kahn
worklist loop. -/
structure KahnInv (jobs : Jobs) (subset : List String) (indeg : String → Nat)
    (queue sorted : List String) : Prop where
  nodup : (sorted ++ queue).Nodup
  sub : ∀ x ∈ sorted ++ queue, x ∈ subset
  deg : ∀ x ∈ subset, x ∉ sorted ++ queue →
    indeg x = count_rem jobs subset sorted x ∧ 1 ≤ count_rem jobs subset sorted x
  qready : ∀ x ∈ queue, ∀ n ∈ needs_of jobs x, n ∈ subset → n ∈ sorted
  emitted : ordered_by_needs jobs subset sorted
  emem : ∀ x ∈ sorted ++ queue, indeg x = 0 ∨
    (2 ^ 64 - sorted.length ≤ indeg x ∧ indeg x < 2 ^ 64)

/-- Render a dependency path the way `detect_cycle` does
(`.join(" -> ")`). -/
def join_arrow (path : List String) : String :=
  String.intercalate " -> " path

mutual

/-- `fn detect_cycle` (src/config/jobs.rs lines 134-158), fuelled: push the
job on the path, mark it visited, then scan its needs; the path is passed
down extended and is implicitly restored on return (the `path.pop()`). -/
def detect_cycle (jobs : Jobs) : Nat → String → List String → List String →
    Except String (List String)
  | 0, _, visited, _ => .ok visited
  | fuel + 1, job_id, visited, path =>
    let path1 := path ++ [job_id]
    let visited1 := if visited.contains job_id then visited else job_id :: visited
    match jobs.get_job job_id with
    | none => .ok visited1
    | some job => detect_cycle_needs jobs fuel job.needs visited1 path1
termination_by structural fuel _ _ => fuel

/-- The needs loop of `detect_cycle` (src/config/jobs.rs lines 144-153): a
need already on the path is a back-edge and yields the cycle error; an
unvisited need is explored recursively. -/
def detect_cycle_needs (jobs : Jobs) : Nat → List String → List String → List String →
    Except String (List String)
  | 0, _, visited, _ => .ok visited
  | _ + 1, [], visited, _ => .ok visited
  | fuel + 1, needed :: ns, visited, path =>
    if path.contains needed then
      .error ("circular dependency detected: " ++ join_arrow path ++ " -> " ++ needed)
    else if visited.contains needed then
      detect_cycle_needs jobs fuel ns visited path
    else
      match detect_cycle jobs fuel needed visited path with
      | .error e => .error e
      | .ok visited1 => detect_cycle_needs jobs fuel ns visited1 path
termination_by structural fuel _ _ _ => fuel

end

/-- The ids occurring anywhere in the graph: keys plus all referenced
needs (a fuel universe for `detect_cycle`). -/
def all_ids (jobs : Jobs) : List String :=
  (jobs.map (fun p => p.1) ++ (jobs.map (fun p => p.2.needs)).flatten).dedup

/-- Length of the needs list of a job (0 when the id is not a key). -/
def needs_len (jobs : Jobs) (id : String) : Nat :=
  match jobs.get_job id with
  | none => 0
  | some job => job.needs.length

/-- Fuel that always suffices for the cycle scan: one unit per unvisited id
plus one per dependency reference of each unvisited id, plus one. -/
def detect_fuel (jobs : Jobs) : Nat :=
  1 + ((all_ids jobs).map (fun x => 1 + needs_len jobs x)).sum

/-- The cycle-detection loop of `Jobs::deserialize` (src/config/jobs.rs lines
120-128): run `detect_cycle` from every not-yet-visited key, threading the
visited set. -/
def detect_cycles_from (jobs : Jobs) : List String → List String → Except String Unit
  | [], _ => .ok ()
  | job_id :: rest, visited =>
    if visited.contains job_id then detect_cycles_from jobs rest visited
    else
      match detect_cycle jobs (detect_fuel jobs) job_id visited [] with
      | .error e => .error e
      | .ok visited1 => detect_cycles_from jobs rest visited1

/-- The unknown-needs loop of `Jobs::deserialize` (src/config/jobs.rs lines
101-107) for one job. -/
def check_job_needs (jobs : Jobs) (job_id : String) : List String → Except String Unit
  | [] => .ok ()
  | needed :: ns =>
    if (jobs.get_job needed).isSome then check_job_needs jobs job_id ns
    else
      .error
        s!"job \x27{job_id}\x27 needs job \x27{needed}\x27, but there is no \x27{needed}\x27 job"

/-- The duplicate-step-id loop of `Jobs::deserialize` (src/config/jobs.rs
lines 109-117) for one job. -/
def check_dup_step_ids (job_id : String) : List Step → List String → Except String Unit
  | [], _ => .ok ()
  | step :: rest, seen =>
    match step.id with
    | none => check_dup_step_ids job_id rest seen
    | some sid =>
      if seen.contains sid then
        .error s!"duplicate step id \x27{sid}\x27 found in job \x27{job_id}\x27"
      else check_dup_step_ids job_id rest (sid :: seen)

/-- The per-job validation loop of `Jobs::deserialize` (src/config/jobs.rs
lines 99-118). -/
def check_jobs_wellformed (jobs : Jobs) : Jobs → Except String Unit
  | [] => .ok ()
  | (job_id, job) :: rest => do
    check_job_needs jobs job_id job.needs
    check_dup_step_ids job_id job.steps []
    check_jobs_wellformed jobs rest

/-- The validation performed by `Jobs::deserialize` (src/config/jobs.rs lines
92-131) after the raw map has been read: referential integrity, duplicate
step ids, then cycle detection; graph construction succeeds iff this
succeeds. -/
def Jobs.validate (jobs : Jobs) : Except String Unit := do
  check_jobs_wellformed jobs jobs
  detect_cycles_from jobs (jobs.map (fun p => p.1)) []

/-- Model of a spawned `std::process::Command` as built by `make_command`
(non-Windows branch: `sh -c <command>`).  `envs` records explicit variable
overrides set on the command; `Command::new` sets none, and `make_command`
never calls `.env_clear()` / `.envs(..)` (that call is commented out in the
source), so the child always inherits the parent environment unchanged. -/
structure Cmd where
  program : String
  args : List String
  dir : String
  envs : Option (List (String × String))
deriving DecidableEq, Repr

/-- `fn make_command` (src/commands/run.rs lines 310-327).  The `_variables`
iterator parameter is received and ignored by the source (`TODO: figure out
what to do with environment variables`), which is why the result does not
depend on `_vs`. -/
def make_command (step : Step) (directory : String)
    (_vs : List (String × String)) : Cmd :=
  { program := "sh", args := ["-c", step.command], dir := directory, envs := none }

/-- Abbreviation for the shell command `make_command` builds for a given
command string and working directory. -/
def sh_cmd (c dir : String) : Cmd :=
  { program := "sh", args := ["-c", c], dir := dir, envs := none }

/-- Model of a workspace package (`cargo_metadata::Package` plus the
`pkg_data::variables` metadata): name, manifest directory
(`manifest_path.parent()`), and declared package variables. -/
structure Package where
  name : String
  manifest_dir : String
  vars : List (String × String)
deriving DecidableEq, Repr

/-- Outcome of `host.spawn` plus `wait_with_output` for one command as
observed by `run_job`: the spawn can fail, the wait can fail, or the process
exits with a success flag and a display string for its exit status. -/
inductive SpawnOutcome where
  | spawnErr (msg : String)
  | waitErr (msg : String)
  | exited (success : Bool) (status : String)
deriving DecidableEq, Repr

/-- Observable events of a run: outputter calls plus process dispatches
(`dispatch cmd` marks the `host.spawn(&mut cmd)` call itself). -/
inductive Event where
  | start_activity (msg : String)
  | complete_activity (msg : String)
  | message (msg : String)
  | run_command (cmd : Cmd)
  | dispatch (cmd : Cmd)
  | command_error (msg : String) (fatal : Bool)
deriving DecidableEq, Repr

/-- The commands handed to the process-execution collaborator in an event
trace. -/
def dispatches (evs : List Event) : List Cmd :=
  evs.filterMap (fun e => match e with | .dispatch c => some c | _ => none)

/-- Whether an event is an `outputter.command_error` call (a recorded
failure). -/
def is_command_error : Event → Bool
  | .command_error _ _ => true
  | _ => false

/-- Ambient context of one `run_jobs` invocation: the dry-run flag and
command-line variables from `RunArgs`, the filtered environment snapshot, the
workspace-level config variables, the workspace root, and the process oracle
standing in for the host. -/
structure RunCtx where
  dry_run : Bool
  cli_vars : List (String × String)
  env_vars : List (String × String)
  cfg_vars : List (String × String)
  workspace_root : String
  spawn : Cmd → SpawnOutcome

/-- Variable chain for the job-level condition inside the package filter
(run.rs lines 142-144): environment → workspace → package → command-line. -/
def job_cond_chain (ctx : RunCtx) (pkg : Package) : List (String × String) :=
  ctx.env_vars ++ ctx.cfg_vars ++ pkg.vars ++ ctx.cli_vars

/-- Variable chain for the step-level condition (run.rs lines 150-156):
environment → workspace → job → package → command-line. -/
def step_cond_chain (ctx : RunCtx) (job : Job) (pkg : Package) : List (String × String) :=
  ctx.env_vars ++ ctx.cfg_vars ++ job.vars ++ pkg.vars ++ ctx.cli_vars

/-- Variable chain for `continue_on_error` of a per-package step (run.rs
lines 168-174). -/
def coe_pkg_chain (ctx : RunCtx) (job : Job) (pkg : Package) : List (String × String) :=
  ctx.env_vars ++ ctx.cfg_vars ++ job.vars ++ pkg.vars ++ ctx.cli_vars

/-- Variable chain for `continue_on_error` of a non-per-package step (run.rs
lines 176-178 and 255-257). -/
def coe_chain (ctx : RunCtx) (job : Job) : List (String × String) :=
  ctx.env_vars ++ ctx.cfg_vars ++ job.vars ++ ctx.cli_vars

/-- Variable chain for the job-level `continue_on_error` in `run_jobs`
(run.rs lines 104-106): environment → workspace → command-line. -/
def job_coe_chain (ctx : RunCtx) : List (String × String) :=
  ctx.env_vars ++ ctx.cfg_vars ++ ctx.cli_vars

/-- Variable chain computed for dispatch of a per-package step (run.rs lines
190-195): environment → workspace → job → package → step → command-line.
Note the package layer comes before the step layer.  `make_command` then
ignores the chain. -/
def exec_pkg_chain (ctx : RunCtx) (job : Job) (step : Step) (pkg : Package) :
    List (String × String) :=
  ctx.env_vars ++ ctx.cfg_vars ++ job.vars ++ pkg.vars ++ step.vars ++ ctx.cli_vars

/-- Variable chain computed for dispatch of a non-per-package step (run.rs
lines 201-205 and 268-272). -/
def exec_chain (ctx : RunCtx) (job : Job) (step : Step) : List (String × String) :=
  ctx.env_vars ++ ctx.cfg_vars ++ job.vars ++ step.vars ++ ctx.cli_vars

/-- Modelled from the spec (for the refinement comparison of claim C3): "the
flattening of the layers in precedence order environment, then workspace,
then job, then step, then package variables (the package layer present only
when the step is per-package), then command-line variables, with a later
layer's value for a key overriding an earlier layer's". -/
def spec_step_process_vars (ctx : RunCtx) (job : Job) (step : Step) (pkg : Package) :
    List (String × String) :=
  (ctx.env_vars ++ ctx.cfg_vars ++ job.vars ++ step.vars ++
      (if step.per_package then pkg.vars else []) ++ ctx.cli_vars).foldl
    (fun acc p => acc.filter (fun q => q.1 != p.1) ++ [p]) []

/-- The package filter at the top of each step of `run_job` (run.rs lines
140-162): evaluate the job-level condition and the step-level condition per
package, reporting a skip message when either is false; evaluation errors
abort the job. -/
def filter_step_packages (ctx : RunCtx) (job : Job) (step : Step) :
    List Package → List Event × Except String (List Package)
  | [] => ([], .ok [])
  | pkg :: rest =>
    match job.conditional.evaluate (job_cond_chain ctx pkg) with
    | .error e => ([], .error e)
    | .ok false =>
      let n := pkg.name
      let (evs, r) := filter_step_packages ctx job step rest
      (Event.message s!"Package \x27{n}\x27 skipped due to job-level condition" :: evs, r)
    | .ok true =>
      match step.conditional.evaluate (step_cond_chain ctx job pkg) with
      | .error e => ([], .error e)
      | .ok false =>
        let n := pkg.name
        let (evs, r) := filter_step_packages ctx job step rest
        (Event.message s!"Package \x27{n}\x27 skipped due to step-level condition" :: evs, r)
      | .ok true =>
        let (evs, r) := filter_step_packages ctx job step rest
        match r with
        | .ok l => (evs, .ok (pkg :: l))
        | .error e => (evs, .error e)

/-- One `host.spawn` call plus outcome handling, shared between the
per-package branch (run.rs lines 209-251) and the workspace branch (lines
274-303); `desc` is the step-and-package description used in error texts. -/
def exec_command (ctx : RunCtx) (cmd : Cmd) (desc : String) (coe : Bool) :
    List Event × Except String Unit :=
  let evs := [Event.run_command cmd, Event.dispatch cmd]
  match ctx.spawn cmd with
  | .exited true _ => (evs, .ok ())
  | .exited false status =>
    (evs ++ [Event.command_error "unable to run step" (!coe)],
      .error ("unable to run step " ++ desc ++ ": " ++ status))
  | .waitErr e =>
    (evs ++ [Event.command_error ("unable to wait for step: " ++ e) (!coe)],
      .error ("unable to wait for step " ++ desc ++ ": " ++ e))
  | .spawnErr e =>
    (evs ++ [Event.command_error ("unable to start step: " ++ e) (!coe)],
      .error ("unable to start step " ++ desc ++ ": " ++ e))

/-- Outcome handling after one per-package spawn (the tail of the loop body,
run.rs lines 247-251): on failure, continue with the remaining packages when
`continue_on_error` holds, otherwise abort with the error. -/
def per_pkg_exec (ctx : RunCtx) (cmd : Cmd) (desc : String) (coe : Bool)
    (rest : List Event × Except String Unit) : List Event × Except String Unit :=
  let (eevs, r) := exec_command ctx cmd desc coe
  match r with
  | .ok _ => (eevs ++ rest.1, rest.2)
  | .error e => if coe then (eevs ++ rest.1, rest.2) else (eevs, .error e)

/-- The per-package execution loop of a step (run.rs lines 165-252):
`continue_on_error` is evaluated eagerly before the dry-run check; in dry-run
the command is never built or spawned; a failure aborts the loop unless
`continue_on_error` holds. -/
def run_step_per_pkg (ctx : RunCtx) (job : Job) (step : Step) :
    List Package → List Event × Except String Unit
  | [] => ([], .ok ())
  | pkg :: rest =>
    let coe_vars := if step.per_package then coe_pkg_chain ctx job pkg else coe_chain ctx job
    match step.continue_on_error.evaluate coe_vars with
    | .error e => ([], .error e)
    | .ok coe =>
      let sname := step.name
      let pname := pkg.name
      let msg := Event.message s!"step \x27{sname}\x27 for package \x27{pname}\x27"
      if ctx.dry_run then
        let (evs, r) := run_step_per_pkg ctx job step rest
        (msg :: evs, r)
      else
        let chain :=
          if step.per_package then exec_pkg_chain ctx job step pkg
          else exec_chain ctx job step
        let res := per_pkg_exec ctx (make_command step pkg.manifest_dir chain)
            s!"\x27{sname}\x27 for package \x27{pname}\x27" coe
            (run_step_per_pkg ctx job step rest)
        (msg :: res.1, res.2)

/-- Outcome handling after the workspace-root spawn (run.rs lines 299-303):
a failure is swallowed when `continue_on_error` holds (the `continue` moves
to the next step), otherwise it aborts the job. -/
def ws_exec (ctx : RunCtx) (cmd : Cmd) (desc : String) (coe : Bool) :
    List Event × Except String Unit :=
  let (eevs, r) := exec_command ctx cmd desc coe
  match r with
  | .ok _ => (eevs, .ok ())
  | .error e => if coe then (eevs, .ok ()) else (eevs, .error e)

/-- The workspace-root execution of a step, taken when every package passed
the filter and the step is not per-package (run.rs lines 253-304). -/
def run_step_ws (ctx : RunCtx) (job : Job) (step : Step) :
    List Event × Except String Unit :=
  match step.continue_on_error.evaluate (coe_chain ctx job) with
  | .error e => ([], .error e)
  | .ok coe =>
    let sname := step.name
    let msg := Event.message s!"step \x27{sname}\x27"
    if ctx.dry_run then ([msg], .ok ())
    else
      let res := ws_exec ctx (make_command step ctx.workspace_root (exec_chain ctx job step))
          s!"\x27{sname}\x27" coe
      (msg :: res.1, res.2)

/-- One step of `run_job` (run.rs lines 139-305): filter the packages, then
run per package if some package was excluded or the step is per-package,
otherwise run once at the workspace root. -/
def run_step (ctx : RunCtx) (packages : List Package) (job : Job) (step : Step) :
    List Event × Except String Unit :=
  let (fevs, fr) := filter_step_packages ctx job step packages
  match fr with
  | .error e => (fevs, .error e)
  | .ok pkgs =>
    if pkgs.length != packages.length || step.per_package then
      let (evs, r) := run_step_per_pkg ctx job step pkgs
      (fevs ++ evs, r)
    else
      let (evs, r) := run_step_ws ctx job step
      (fevs ++ evs, r)

/-- The step loop of `run_job`: steps run in declared order, and a failing
step (without continue-on-error) aborts the remaining steps of the job. -/
def run_job_steps (ctx : RunCtx) (packages : List Package) (job : Job) :
    List Step → List Event × Except String Unit
  | [] => ([], .ok ())
  | step :: rest =>
    let (evs, r) := run_step ctx packages job step
    match r with
    | .error e => (evs, .error e)
    | .ok _ =>
      let (evs1, r1) := run_job_steps ctx packages job rest
      (evs ++ evs1, r1)

/-- `fn run_job` (src/commands/run.rs lines 125-308). -/
def run_job (ctx : RunCtx) (packages : List Package) (job : Job) :
    List Event × Except String Unit :=
  run_job_steps ctx packages job job.steps

/-- The job loop of `fn run_jobs` (src/commands/run.rs lines 97-120) over the
topologically sorted job ids: evaluate the job-level `continue_on_error`
eagerly, run the job, then report `ran N step(s)`, `failed, but ignored`, or
`failed` (aborting the run). -/
def run_jobs_loop (ctx : RunCtx) (jobs : Jobs) (packages : List Package) :
    List String → List Event × Except String Unit
  | [] => ([], .ok ())
  | job_id :: rest =>
    match jobs.get_job job_id with
    | none => ([], .error "job not found")
    | some job =>
      let jname := job.name.getD job_id
      let st := Event.start_activity jname
      match job.continue_on_error.evaluate (job_coe_chain ctx) with
      | .error e => ([st], .error e)
      | .ok coe =>
        let (jevs, r) := run_job ctx packages job
        let n := job.steps.length
        match r with
        | .ok _ =>
          let (revs, rr) := run_jobs_loop ctx jobs packages rest
          (st :: (jevs ++ [Event.complete_activity s!"ran {n} step(s)"] ++ revs), rr)
        | .error e =>
          if coe then
            let (revs, rr) := run_jobs_loop ctx jobs packages rest
            (st :: (jevs ++ [Event.complete_activity "failed, but ignored"] ++ revs), rr)
          else (st :: (jevs ++ [Event.complete_activity "failed"]), .error e)

/-- A minimal concrete run context for counterexamples and witnesses:
no variables anywhere, every spawned process succeeds. -/
def ctx0 : RunCtx :=
  { dry_run := false, cli_vars := [], env_vars := [], cfg_vars := [],
    workspace_root := "/ws", spawn := fun _ => .exited true "exit status: 0" }

/-- The same context in dry-run mode. -/
def ctx_dry : RunCtx :=
  { ctx0 with dry_run := true }

/-- A context in which exactly the command `bad` fails. -/
def ctx_fail : RunCtx :=
  { ctx0 with
    spawn := fun c =>
      if c.args = ["-c", "bad"] then .exited false "exit status: 1"
      else .exited true "exit status: 0" }

/-- Concrete package used by counterexamples and witnesses. -/
def pkg0 : Package := { name := "p", manifest_dir := "/ws/p", vars := [] }

/-- Job whose job-level condition is the literal `false`, with one simple
step (claim C2). -/
def job_false_cond : Job :=
  { steps := [Step.simple "echo hi"], conditional := .bool false }

/-- Step carrying a step-scoped variable (claim C3). -/
def step_with_var : Step :=
  Step.extended "cmd" none none (.bool true) (.bool false) false [("K", "V")]

/-- Job containing `step_with_var` (claim C3). -/
def job_with_var : Job := { steps := [step_with_var] }

/-- Two-step job for the continue-on-error claim (C4): step 1 has
`continue_on_error = b`, step 2 is a bare command. -/
def two_step_job (c1 c2 : String) (b : Bool) : Job :=
  { steps := [Step.extended c1 none none (.bool true) (.bool b) false [], Step.simple c2] }

/-- One-step job whose step-level `continue_on_error` is the expression `f`
(claim C9). -/
def job_coe_expr (f : ExprFn) : Job :=
  { steps := [Step.extended "c" none none (.bool true) (.expr f) false []] }

/-- One-step job whose job-level condition is the expression `g`
(claim C9). -/
def job_cond_expr (g : ExprFn) : Job :=
  { steps := [Step.simple "c"], conditional := .expr g }

/-- Dependency chain a → b → c (each job needs the next), used for the
topological-sort claim (C1). -/
def chain_jobs : Jobs :=
  [("a", { needs := ["b"] }), ("b", { needs := ["c"] }), ("c", {})]

/-- Rank function certifying that `chain_jobs` is acyclic. -/
def chain_rank (x : String) : Nat :=
  if x = "a" then 2 else if x = "b" then 1 else 0

/-- Three-job cycle a → b → c → a, used for the cycle-detection claim
(C7). -/
def cyc3_jobs : Jobs :=
  [("a", { needs := ["b"] }), ("b", { needs := ["c"] }), ("c", { needs := ["a"] })]

/-- The cycle a → b → c → a entered through the extra job d (iterated
first), used for the cycle-detection claim (C7). -/
def cyc_entry_jobs : Jobs :=
  [("d", { needs := ["a"] }), ("a", { needs := ["b"] }), ("b", { needs := ["c"] }),
   ("c", { needs := ["a"] })]

/-- Proof apparatus for `detect_cycle`: remaining fuel needed for the ids not
yet visited. -/
def Pot (jobs : Jobs) (visited : List String) : Nat :=
  (((all_ids jobs).filter (fun x => !(visited.contains x))).map
    (fun x => 1 + needs_len jobs x)).sum

/-- Proof apparatus for `detect_cycle`: every finished (visited, off-path)
id has all of its needs finished as well. -/
def black_good (jobs : Jobs) (visited path : List String) : Prop :=
  ∀ x ∈ visited, x ∉ path → ∀ y ∈ needs_of jobs x, y ∈ visited ∧ y ∉ path

/-- Proof apparatus for `detect_cycle`: no finished id lies on a dependency
cycle. -/
def black_acyclic (jobs : Jobs) (visited path : List String) : Prop :=
  ∀ x ∈ visited, x ∉ path → ¬ reaches jobs x x

/-- Proof apparatus for `detect_cycle`: the invariant of the depth-first
scan. -/
structure DfsInv (jobs : Jobs) (visited path : List String) : Prop where
  psub : ∀ x ∈ path, x ∈ visited
  bgood : black_good jobs visited path
  bacyc : black_acyclic jobs visited path

/-- Proof apparatus for `detect_cycle`: consecutive list elements are need
edges. -/
def needs_chain (jobs : Jobs) : List String → Prop
  | [] => True
  | [_] => True
  | x :: y :: rest => y ∈ needs_of jobs x ∧ needs_chain jobs (y :: rest)

end CargoCI

-- ========================= Theorems =========================

namespace CargoCI

namespace ModifierExpression

/-- Helper: every identifier-continuation character is also an
identifier-start character (both are the ASCII set `[A-Za-z0-9_-]`). -/
theorem is_ident_start_of_continuation {c : Char} (h : is_ident_continuation c = true) :
    is_ident_start c = true := by
  simp [is_ident_continuation, Char.isAlphanum, Char.isAlpha, Char.isDigit, Char.isUpper,
    Char.isLower] at h
  simp [is_ident_start, Char.le_def]
  tauto

/-- Helper: identifier-start characters are not whitespace. -/
theorem not_whitespace_of_ident_start {c : Char} (h : is_ident_start c = true) :
    is_whitespace c = false := by
  by_contra hw
  simp at hw
  have h2 : c = ' ' ∨ c = '\t' ∨ c = '\n' ∨ c = '\r' := by
    simp [is_whitespace] at hw; tauto
  rcases h2 with h1 | h1 | h1 | h1 <;> subst h1 <;> exact absurd h (by decide)

/-- Helper: identifier-start characters are none of the operator characters. -/
theorem not_op_of_ident_start {c : Char} (h : is_ident_start c = true) :
    ¬(c = '&') ∧ ¬(c = '|') ∧ ¬(c = '!') ∧ ¬(c = '(') ∧ ¬(c = ')') := by
  refine ⟨?_, ?_, ?_, ?_, ?_⟩ <;> intro h1 <;> subst h1 <;> exact absurd h (by decide)

/-- Helper: tokenizing a nonempty string of identifier characters yields a
single identifier token. -/
theorem tokenize_chars_single_ident (c : Char) (cs : List Char) (k : Nat)
    (hstart : is_ident_start c = true)
    (hcont : ∀ x ∈ cs, is_ident_continuation x = true) :
    tokenize_chars (k + 2) (c :: cs) = .ok [Token.identifier (String.mk (c :: cs))] := by
  have hws := not_whitespace_of_ident_start hstart
  obtain ⟨h1, h2, h3, h4, h5⟩ := not_op_of_ident_start hstart
  have htake : cs.takeWhile is_ident_continuation = cs :=
    List.takeWhile_eq_self_iff.mpr hcont
  have hdrop : cs.dropWhile is_ident_continuation = [] :=
    List.dropWhile_eq_nil_iff.mpr hcont
  simp [tokenize_chars, hws, h1, h2, h3, h4, h5, hstart, htake, hdrop]

/-- Helper: tokenizing a whole identifier string. -/
theorem tokenize_single_ident (name : String)
    (hne : name.data ≠ [])
    (hcont : ∀ x ∈ name.data, is_ident_continuation x = true) :
    tokenize name = .ok [Token.identifier name] := by
  obtain ⟨c, cs, hdata⟩ : ∃ c cs, name.data = c :: cs := by
    cases hd : name.data with
    | nil => exact absurd hd hne
    | cons c cs => exact ⟨c, cs, rfl⟩
  have hstart : is_ident_start c = true :=
    is_ident_start_of_continuation (hcont c (by rw [hdata]; exact List.mem_cons_self c cs))
  have hcs : ∀ x ∈ cs, is_ident_continuation x = true := by
    intro x hx
    exact hcont x (by rw [hdata]; exact List.mem_cons_of_mem c hx)
  have hmk : String.mk (c :: cs) = name := by
    cases name
    simp at hdata
    rw [hdata]
  unfold tokenize
  rw [hdata]
  have := tokenize_chars_single_ident c cs cs.length hstart hcs
  simpa [hmk] using this

/-- Helper: evaluating an expression whose token stream is a single
identifier is exactly a membership test against the modifier list. -/
theorem evaluate_single_ident (expr : String) (n : String) (mods : List String)
    (h : tokenize expr = .ok [Token.identifier n]) :
    evaluate expr mods = .ok (mods.contains n) := by
  unfold evaluate
  rw [h]
  rfl

/-- Claim C5: the modifier boolean algebra gives `&` higher precedence than
`|` and `!` the highest precedence, and an identifier tests membership in the
modifier set: `evaluate "nightly" ["nightly"]` is true,
`evaluate "nightly" []` is false, `evaluate "!nightly" []` is true,
`evaluate "(a|b)&!c" ["a","c"]` is false, and
`evaluate "a|b&c" ["a"]` is true. -/
theorem modifier_precedence_examples :
    evaluate "nightly" ["nightly"] = .ok true ∧
    evaluate "nightly" [] = .ok false ∧
    evaluate "!nightly" [] = .ok true ∧
    evaluate "(a|b)&!c" ["a", "c"] = .ok false ∧
    evaluate "a|b&c" ["a"] = .ok true := by
  refine ⟨by decide, by decide, by decide, by decide, by decide⟩

/-- Claim C6 (counterexample): contrary to the spec grammar
`not_expr := '!' not_expr | primary`, the parser does not let `!` nest:
`"!!a"` is a parse error, not the value of `"a"` (on the empty modifier set
`"a"` evaluates to `Ok false` while `"!!a"` evaluates to no boolean at all). -/
theorem double_negation_is_parse_error :
    (evaluate "!!a" []).isOk = false ∧ (evaluate "a" []).isOk = true := by
  refine ⟨by decide, by decide⟩

/-- Claim C6 (amended): after `!` the parser consumes a primary, not another
not-expression, so consecutive `!` fail to parse for every modifier set;
nested negation must be parenthesized, and `"!(!a)"` evaluates to the same
boolean as the bare primary `"a"` for every modifier set. -/
theorem not_does_not_nest (mods : List String) :
    (evaluate "!!a" mods).isOk = false ∧
    evaluate "!(!a)" mods = evaluate "a" mods := by
  constructor
  · rfl
  · show Except.ok (!(!(mods.contains "a"))) = Except.ok (mods.contains "a")
    rw [Bool.not_not]

/-- Claim C8: the malformed modifier expressions `"("`, `""`, `"&"`, and the
trailing-token expression `"a b"` are parse errors — never booleans — for
every modifier set. -/
theorem malformed_expressions_error (mods : List String) :
    evaluate "(" mods = .error "Unexpected end of expression" ∧
    evaluate "" mods = .error "Unexpected end of expression" ∧
    (evaluate "&" mods).isOk = false ∧
    evaluate "a b" mods = .error "Unexpected token at position 1" := by
  refine ⟨rfl, rfl, rfl, rfl⟩

/-- Claim C10: identifier lookup is an exact, case-sensitive string
comparison: for every identifier expression (a nonempty string of identifier
characters) and every modifier list, `evaluate` returns exactly the
membership test of that string in the list; in particular
`evaluate "NIGHTLY" ["nightly"]` is `Ok false`. -/
theorem identifier_membership_exact :
    (∀ (name : String) (mods : List String),
        name.data ≠ [] →
        (∀ c ∈ name.data, is_ident_continuation c = true) →
        evaluate name mods = .ok (mods.contains name)) ∧
    evaluate "NIGHTLY" ["nightly"] = .ok false := by
  constructor
  · intro name mods hne hcont
    exact evaluate_single_ident name name mods (tokenize_single_ident name hne hcont)
  · decide

/-- Witness for C10 at a concrete input. -/
theorem identifier_membership_exact_witness :
    evaluate "abc" ["x", "abc"] = .ok true ∧ evaluate "NIGHTLY" ["nightly"] = .ok false := by
  constructor
  · exact identifier_membership_exact.1 "abc" ["x", "abc"] (by decide) (by decide)
  · exact identifier_membership_exact.2

end ModifierExpression

end CargoCI

namespace CargoCI

/-- Helper: `dispatches` distributes over append. -/
theorem dispatches_append (a b : List Event) :
    dispatches (a ++ b) = dispatches a ++ dispatches b :=
  List.filterMap_append a b _

/-- Helper: an event list made of `message` events only has no dispatches and
records no failure. -/
theorem message_events_clean (evs : List Event)
    (h : ∀ e ∈ evs, ∃ m, e = Event.message m) :
    dispatches evs = [] ∧ evs.filter is_command_error = [] := by
  induction evs with
  | nil => exact ⟨rfl, rfl⟩
  | cons e rest ih =>
    obtain ⟨m, hm⟩ := h e (List.mem_cons_self e rest)
    have hr := ih (fun x hx => h x (List.mem_cons_of_mem e hx))
    subst hm
    simpa [dispatches, is_command_error] using hr

/-- Helper: the package filter emits only skip messages. -/
theorem filter_step_packages_messages (ctx : RunCtx) (job : Job) (step : Step)
    (pkgs : List Package) :
    ∀ e ∈ (filter_step_packages ctx job step pkgs).1, ∃ m, e = Event.message m := by
  induction pkgs with
  | nil =>
    intro e he
    simp [filter_step_packages] at he
  | cons pkg rest ih =>
    intro e he
    simp only [filter_step_packages] at he
    cases hj : job.conditional.evaluate (job_cond_chain ctx pkg) with
    | error msg => simp [hj] at he
    | ok bj =>
      cases bj with
      | false =>
        rw [hj] at he
        simp at he
        rcases he with he | he
        · exact ⟨_, he⟩
        · exact ih e he
      | true =>
        rw [hj] at he
        cases hs : step.conditional.evaluate (step_cond_chain ctx job pkg) with
        | error msg => simp [hs] at he
        | ok bs =>
          cases bs with
          | false =>
            rw [hs] at he
            simp at he
            rcases he with he | he
            · exact ⟨_, he⟩
            · exact ih e he
          | true =>
            rw [hs] at he
            simp at he
            rcases hfp : filter_step_packages ctx job step rest with ⟨evs, r⟩
            rw [hfp] at he
            cases r with
            | ok l => simp at he; exact ih e (by rw [hfp]; simpa using he)
            | error msg => simp at he; exact ih e (by rw [hfp]; simpa using he)

end CargoCI

namespace CargoCI

/-- Helper: with the job-level condition false for every package, the filter
yields the empty package set. -/
theorem filter_all_skipped (ctx : RunCtx) (job : Job) (step : Step) (pkgs : List Package)
    (hcond : ∀ pkg ∈ pkgs, job.conditional.evaluate (job_cond_chain ctx pkg) = .ok false) :
    (filter_step_packages ctx job step pkgs).2 = .ok [] := by
  induction pkgs with
  | nil => rfl
  | cons pkg rest ih =>
    have h := hcond pkg (List.mem_cons_self pkg rest)
    have hr := ih (fun p hp => hcond p (List.mem_cons_of_mem pkg hp))
    rcases hfp : filter_step_packages ctx job step rest with ⟨evs, r⟩
    rw [hfp] at hr
    simp only [filter_step_packages, h, hfp]
    exact hr

/-- Helper: with the job-level condition false for every package, every step
runs over the empty per-package set: the result is Ok and every event is a
skip message. -/
theorem run_job_steps_all_skipped (ctx : RunCtx) (packages : List Package) (job : Job)
    (steps : List Step)
    (hne : packages ≠ [])
    (hcond : ∀ pkg ∈ packages, job.conditional.evaluate (job_cond_chain ctx pkg) = .ok false) :
    (run_job_steps ctx packages job steps).2 = .ok () ∧
    ∀ e ∈ (run_job_steps ctx packages job steps).1, ∃ m, e = Event.message m := by
  induction steps with
  | nil => exact ⟨rfl, by intro e he; simp [run_job_steps] at he⟩
  | cons step rest ih =>
    have hstep : run_step ctx packages job step =
        ((filter_step_packages ctx job step packages).1, .ok ()) := by
      rcases hfp : filter_step_packages ctx job step packages with ⟨evs, r⟩
      have h2 := filter_all_skipped ctx job step packages hcond
      rw [hfp] at h2
      subst h2
      have hlen : (0 != packages.length) = true := by
        cases packages with
        | nil => exact absurd rfl hne
        | cons p ps => simp
      simp [run_step, hfp, hlen, run_step_per_pkg]
    constructor
    · simp only [run_job_steps, hstep, ih.1]
    · intro e he
      simp only [run_job_steps, hstep] at he
      rcases hjs : run_job_steps ctx packages job rest with ⟨evs1, r1⟩
      rw [hjs] at he
      cases r1 with
      | ok u =>
        simp at he
        rcases he with he | he
        · exact filter_step_packages_messages ctx job step packages e he
        · exact ih.2 e (by rw [hjs]; simpa using he)
      | error msg =>
        simp at he
        rcases he with he | he
        · exact filter_step_packages_messages ctx job step packages e he
        · exact ih.2 e (by rw [hjs]; simpa using he)

/-- Claim C2 (amended): when at least one package is selected and the
job-level condition evaluates to false for every package, the job runs no
step command, records no failure, and completes Ok — each (step, package)
pair is skipped with a message; there is no distinct Skipped job status in
the code. -/
theorem job_condition_false_skips_all (ctx : RunCtx) (packages : List Package) (job : Job)
    (hne : packages ≠ [])
    (hcond : ∀ pkg ∈ packages, job.conditional.evaluate (job_cond_chain ctx pkg) = .ok false) :
    (run_job ctx packages job).2 = .ok () ∧
    dispatches (run_job ctx packages job).1 = [] ∧
    (run_job ctx packages job).1.filter is_command_error = [] := by
  have h := run_job_steps_all_skipped ctx packages job job.steps hne hcond
  have hc := message_events_clean _ h.2
  exact ⟨h.1, hc.1, hc.2⟩

/-- Witness for C2 (amended) at a concrete input. -/
theorem job_condition_false_skips_all_witness :
    (run_job ctx0 [pkg0] job_false_cond).2 = .ok () ∧
    dispatches (run_job ctx0 [pkg0] job_false_cond).1 = [] ∧
    (run_job ctx0 [pkg0] job_false_cond).1.filter is_command_error = [] :=
  job_condition_false_skips_all ctx0 [pkg0] job_false_cond (by decide)
    (fun pkg _ => rfl)

/-- Claim C2 (counterexample): with zero selected packages the job-level
condition is never consulted: here it is the literal `false` (so it evaluates
to false in every context), yet the job's step is dispatched once at the
workspace root, contradicting "none of the job's steps run". -/
theorem job_condition_false_zero_packages_still_runs :
    Conditional.evaluate job_false_cond.conditional (job_cond_chain ctx0 pkg0) = .ok false ∧
    dispatches (run_job ctx0 [] job_false_cond).1 =
      [{ program := "sh", args := ["-c", "echo hi"], dir := "/ws", envs := none }] := by
  exact ⟨rfl, by decide⟩

end CargoCI

namespace CargoCI

/-- Helper: a command in the dispatch list comes from a dispatch event. -/
theorem mem_dispatches {c : Cmd} {evs : List Event} (h : c ∈ dispatches evs) :
    Event.dispatch c ∈ evs := by
  rcases List.mem_filterMap.mp h with ⟨e, he, hfe⟩
  cases e with
  | dispatch c2 =>
    simp at hfe
    rw [hfe] at he
    exact he
  | start_activity m => simp at hfe
  | complete_activity m => simp at hfe
  | message m => simp at hfe
  | run_command m => simp at hfe
  | command_error m f => simp at hfe

/-- Helper: the only dispatch event `exec_command` emits carries its own
command. -/
theorem exec_command_dispatch_events (ctx : RunCtx) (cmd : Cmd) (desc : String) (coe : Bool) :
    ∀ e ∈ (exec_command ctx cmd desc coe).1, ∀ c, e = Event.dispatch c → c = cmd := by
  intro e he c hec
  subst hec
  cases hs : ctx.spawn cmd with
  | exited success st =>
    cases success <;> simp [exec_command, hs] at he <;> exact he
  | waitErr m => simp [exec_command, hs] at he; exact he
  | spawnErr m => simp [exec_command, hs] at he; exact he

/-- Helper: a dispatch event of `per_pkg_exec` carries either its own
command or one of the continuation's. -/
theorem per_pkg_exec_dispatch_events (ctx : RunCtx) (cmd : Cmd) (desc : String) (coe : Bool)
    (rest : List Event × Except String Unit) (c : Cmd)
    (h : Event.dispatch c ∈ (per_pkg_exec ctx cmd desc coe rest).1) :
    c = cmd ∨ Event.dispatch c ∈ rest.1 := by
  rcases hexec : exec_command ctx cmd desc coe with ⟨eevs, r⟩
  have hd : ∀ e ∈ eevs, ∀ x, e = Event.dispatch x → x = cmd := by
    intro e he x hex
    exact exec_command_dispatch_events ctx cmd desc coe e (by rw [hexec]; exact he) x hex
  simp only [per_pkg_exec, hexec] at h
  cases r with
  | ok u =>
    simp at h
    rcases h with h | h
    · exact Or.inl (hd _ h _ rfl)
    · exact Or.inr h
  | error msg =>
    by_cases hcoe : coe = true
    · rw [hcoe] at h
      simp at h
      rcases h with h | h
      · exact Or.inl (hd _ h _ rfl)
      · exact Or.inr h
    · simp only [Bool.not_eq_true] at hcoe
      rw [hcoe] at h
      simp at h
      exact Or.inl (hd _ h _ rfl)

/-- Helper: a dispatch event of `ws_exec` carries its own command. -/
theorem ws_exec_dispatch_events (ctx : RunCtx) (cmd : Cmd) (desc : String) (coe : Bool)
    (c : Cmd) (h : Event.dispatch c ∈ (ws_exec ctx cmd desc coe).1) : c = cmd := by
  rcases hexec : exec_command ctx cmd desc coe with ⟨eevs, r⟩
  have hd : ∀ e ∈ eevs, ∀ x, e = Event.dispatch x → x = cmd := by
    intro e he x hex
    exact exec_command_dispatch_events ctx cmd desc coe e (by rw [hexec]; exact he) x hex
  simp only [ws_exec, hexec] at h
  cases r with
  | ok u => exact hd _ h _ rfl
  | error msg =>
    by_cases hcoe : coe = true
    · rw [hcoe] at h
      simp at h
      exact hd _ h _ rfl
    · simp only [Bool.not_eq_true] at hcoe
      rw [hcoe] at h
      simp at h
      exact hd _ h _ rfl

/-- Helper: every dispatch event of the per-package loop carries a command
built by `make_command` (hence with no variables set). -/
theorem run_step_per_pkg_dispatch_events (ctx : RunCtx) (job : Job) (step : Step)
    (pkgs : List Package) (c : Cmd)
    (h : Event.dispatch c ∈ (run_step_per_pkg ctx job step pkgs).1) :
    c.envs = none := by
  induction pkgs with
  | nil => simp [run_step_per_pkg] at h
  | cons pkg rest ih =>
    simp only [run_step_per_pkg] at h
    split at h
    · simp at h
    · split at h
      · rcases hrest : run_step_per_pkg ctx job step rest with ⟨evs, r⟩
        rw [hrest] at h
        simp at h
        exact ih (by rw [hrest]; simpa using h)
      · simp at h
        rcases per_pkg_exec_dispatch_events _ _ _ _ _ _ h with h1 | h1
        · rw [h1]; rfl
        · exact ih h1

end CargoCI

namespace CargoCI

/-- Helper: every dispatch event of the workspace-root execution carries a
`make_command` command. -/
theorem run_step_ws_dispatch_events (ctx : RunCtx) (job : Job) (step : Step) (c : Cmd)
    (h : Event.dispatch c ∈ (run_step_ws ctx job step).1) :
    c.envs = none := by
  simp only [run_step_ws] at h
  split at h
  · simp at h
  · split at h
    · simp at h
    · simp at h
      rw [ws_exec_dispatch_events _ _ _ _ _ h]
      rfl

/-- Helper: the package filter dispatches nothing. -/
theorem filter_step_packages_no_dispatch (ctx : RunCtx) (job : Job) (step : Step)
    (pkgs : List Package) (c : Cmd)
    (h : Event.dispatch c ∈ (filter_step_packages ctx job step pkgs).1) : False := by
  obtain ⟨m, hm⟩ := filter_step_packages_messages ctx job step pkgs _ h
  simp at hm

/-- Helper: every dispatch of one step of `run_job` has no variables set. -/
theorem run_step_dispatch_events (ctx : RunCtx) (packages : List Package) (job : Job)
    (step : Step) (c : Cmd)
    (h : Event.dispatch c ∈ (run_step ctx packages job step).1) :
    c.envs = none := by
  simp only [run_step] at h
  split at h
  · exact absurd h (fun hc => filter_step_packages_no_dispatch ctx job step packages c hc)
  · split at h <;> rw [List.mem_append] at h
    · rcases h with h | h
      · exact absurd h (fun hc => filter_step_packages_no_dispatch ctx job step packages c hc)
      · exact run_step_per_pkg_dispatch_events ctx job step _ c h
    · rcases h with h | h
      · exact absurd h (fun hc => filter_step_packages_no_dispatch ctx job step packages c hc)
      · exact run_step_ws_dispatch_events ctx job step c h

/-- Helper: every dispatch of `run_job_steps` has no variables set. -/
theorem run_job_steps_dispatch_events (ctx : RunCtx) (packages : List Package) (job : Job)
    (steps : List Step) (c : Cmd)
    (h : Event.dispatch c ∈ (run_job_steps ctx packages job steps).1) :
    c.envs = none := by
  induction steps with
  | nil => simp [run_job_steps] at h
  | cons step rest ih =>
    simp only [run_job_steps] at h
    rcases hs : run_step ctx packages job step with ⟨evs, r⟩
    rw [hs] at h
    cases r with
    | error e =>
      simp at h
      exact run_step_dispatch_events ctx packages job step c (by rw [hs]; simpa using h)
    | ok u =>
      rcases hrest : run_job_steps ctx packages job rest with ⟨evs1, r1⟩
      rw [hrest] at h
      simp at h
      rcases h with h | h
      · exact run_step_dispatch_events ctx packages job step c (by rw [hs]; simpa using h)
      · exact ih (by rw [hrest]; simpa using h)

/-- Claim C3 (amended): no variables are handed to the running process.
`make_command` ignores the computed variable chain (the `.env_clear().envs()`
call is commented out behind a TODO), so every dispatched command carries no
explicit environment and the child inherits the parent environment
unchanged. -/
theorem no_variables_handed :
    (∀ (step : Step) (dir : String) (vs : List (String × String)),
        (make_command step dir vs).envs = none) ∧
    (∀ (ctx : RunCtx) (packages : List Package) (job : Job) (c : Cmd),
        c ∈ dispatches (run_job ctx packages job).1 → c.envs = none) := by
  constructor
  · intro step dir vs
    rfl
  · intro ctx packages job c hc
    exact run_job_steps_dispatch_events ctx packages job job.steps c (mem_dispatches hc)

/-- Witness for C3 (amended) at a concrete input. -/
theorem no_variables_handed_witness :
    ({ program := "sh", args := ["-c", "cmd"], dir := "/ws", envs := none } : Cmd).envs =
      none :=
  no_variables_handed.2 ctx0 [pkg0] job_with_var _ (by decide)

/-- Claim C3 (counterexample): a step with a step-scoped variable is
dispatched with no variables set on the process (`envs = none`), while the
claimed flattening of the layers (environment → workspace → job → step →
package-if-per-package → command-line) is nonempty; the claim that the
dispatched process is handed that flattening is false. -/
theorem handed_vars_ne_spec_flatten :
    dispatches (run_job ctx0 [pkg0] job_with_var).1 =
      [{ program := "sh", args := ["-c", "cmd"], dir := "/ws", envs := none }] ∧
    spec_step_process_vars ctx0 job_with_var step_with_var pkg0 = [("K", "V")] ∧
    ({ program := "sh", args := ["-c", "cmd"], dir := "/ws", envs := none } : Cmd).envs ≠
      some (spec_step_process_vars ctx0 job_with_var step_with_var pkg0) := by
  refine ⟨by decide, by decide, by decide⟩

end CargoCI

namespace CargoCI

/-- Helper: with a literal-true job condition and a literal-true step
condition, the filter keeps every package and emits no event. -/
theorem filter_all_true (ctx : RunCtx) (job : Job) (step : Step) (pkgs : List Package)
    (hj : job.conditional = .bool true) (hs : step.conditional = .bool true) :
    filter_step_packages ctx job step pkgs = ([], .ok pkgs) := by
  induction pkgs with
  | nil => rfl
  | cons pkg rest ih =>
    simp [filter_step_packages, hj, hs, Conditional.evaluate, ih]

/-- Helper: the workspace execution of a step with literal continue-on-error
`coe` whose command fails: the failure is recorded with fatality `!coe`, and
the step result is Ok exactly when `coe` holds. -/
theorem run_step_ws_fail (ctx : RunCtx) (job : Job) (step : Step) (coe : Bool) (st : String)
    (hdry : ctx.dry_run = false)
    (hcoe : step.continue_on_error = .bool coe)
    (hspawn : ctx.spawn (make_command step ctx.workspace_root (exec_chain ctx job step)) =
      .exited false st) :
    run_step_ws ctx job step =
      (Event.message s!"step \x27{step.name}\x27" ::
        [Event.run_command (make_command step ctx.workspace_root (exec_chain ctx job step)),
         Event.dispatch (make_command step ctx.workspace_root (exec_chain ctx job step)),
         Event.command_error "unable to run step" (!coe)],
       if coe then .ok () else
         .error ("unable to run step " ++ s!"\x27{step.name}\x27" ++ ": " ++ st)) := by
  cases coe <;>
    simp [run_step_ws, hcoe, ContinueOnError.evaluate, hdry, ws_exec, exec_command, hspawn]

/-- Helper: `run_step_ws` on a fatally failing command (continue-on-error
false). -/
theorem run_step_ws_fail_abort (ctx : RunCtx) (job : Job) (step : Step) (st : String)
    (hdry : ctx.dry_run = false)
    (hcoe : step.continue_on_error = .bool false)
    (hspawn : ctx.spawn (make_command step ctx.workspace_root (exec_chain ctx job step)) =
      .exited false st) :
    run_step_ws ctx job step =
      (Event.message s!"step \x27{step.name}\x27" ::
        [Event.run_command (make_command step ctx.workspace_root (exec_chain ctx job step)),
         Event.dispatch (make_command step ctx.workspace_root (exec_chain ctx job step)),
         Event.command_error "unable to run step" true],
       .error ("unable to run step " ++ s!"\x27{step.name}\x27" ++ ": " ++ st)) := by
  have h := run_step_ws_fail ctx job step false st hdry hcoe hspawn
  simpa using h

/-- Helper: `run_step_ws` on a tolerated failing command (continue-on-error
true). -/
theorem run_step_ws_fail_continue (ctx : RunCtx) (job : Job) (step : Step) (st : String)
    (hdry : ctx.dry_run = false)
    (hcoe : step.continue_on_error = .bool true)
    (hspawn : ctx.spawn (make_command step ctx.workspace_root (exec_chain ctx job step)) =
      .exited false st) :
    run_step_ws ctx job step =
      (Event.message s!"step \x27{step.name}\x27" ::
        [Event.run_command (make_command step ctx.workspace_root (exec_chain ctx job step)),
         Event.dispatch (make_command step ctx.workspace_root (exec_chain ctx job step)),
         Event.command_error "unable to run step" false],
       .ok ()) := by
  have h := run_step_ws_fail ctx job step true st hdry hcoe hspawn
  simpa using h

/-- Helper: the dispatch list of a workspace-root step execution with a
literal continue-on-error is exactly its own command, whatever the
outcome. -/
theorem run_step_ws_dispatches (ctx : RunCtx) (job : Job) (step : Step) (coe : Bool)
    (hdry : ctx.dry_run = false)
    (hcoe : step.continue_on_error = .bool coe) :
    dispatches (run_step_ws ctx job step).1 =
      [make_command step ctx.workspace_root (exec_chain ctx job step)] := by
  simp only [run_step_ws, hcoe, ContinueOnError.evaluate, hdry]
  cases hs : ctx.spawn (make_command step ctx.workspace_root (exec_chain ctx job step)) with
  | exited success stt =>
    cases success <;> cases coe <;> simp [ws_exec, exec_command, hs, dispatches]
  | waitErr m => cases coe <;> simp [ws_exec, exec_command, hs, dispatches]
  | spawnErr m => cases coe <;> simp [ws_exec, exec_command, hs, dispatches]

/-- Helper: the events of a singleton step list are the events of the
step. -/
theorem run_job_steps_singleton (ctx : RunCtx) (packages : List Package) (job : Job)
    (step : Step) :
    (run_job_steps ctx packages job [step]).1 = (run_step ctx packages job step).1 := by
  rcases hr : run_step ctx packages job step with ⟨evs, r⟩
  cases r <;> simp [run_job_steps, hr]

end CargoCI

namespace CargoCI

/-- Helper: a single failing job with default (false) job-level
continue-on-error is reported `failed` and aborts the loop with its error. -/
theorem run_jobs_loop_single_fail (ctx : RunCtx) (jid : String) (job : Job)
    (packages : List Package) (evs : List Event) (e : String)
    (hcoe : job.continue_on_error = .bool false)
    (hname : job.name = none)
    (hrj : run_job ctx packages job = (evs, .error e)) :
    run_jobs_loop ctx [(jid, job)] packages [jid] =
      (Event.start_activity jid :: (evs ++ [Event.complete_activity "failed"]), .error e) := by
  simp only [run_jobs_loop, Jobs.get_job, List.find?, beq_self_eq_true]
  simp only [Option.map, hname, Option.getD, hcoe, ContinueOnError.evaluate, hrj]
  simp

/-- Helper: a two-step job whose first step fails fatally stops after the
first step. -/
theorem run_job_two_fail (ctx : RunCtx) (packages : List Package) (job : Job)
    (s1 s2 : Step) (evs : List Event) (e : String)
    (hsteps : job.steps = [s1, s2])
    (h1 : run_step ctx packages job s1 = (evs, .error e)) :
    run_job ctx packages job = (evs, .error e) := by
  simp only [run_job, hsteps, run_job_steps, h1]

/-- Helper: a two-step job whose first step recovers continues with the
second step. -/
theorem run_job_two_ok (ctx : RunCtx) (packages : List Package) (job : Job)
    (s1 s2 : Step) (evs : List Event)
    (hsteps : job.steps = [s1, s2])
    (h1 : run_step ctx packages job s1 = (evs, .ok ())) :
    (run_job ctx packages job).1 = evs ++ (run_step ctx packages job s2).1 := by
  simp only [run_job, hsteps, run_job_steps, h1]
  rcases h2 : run_step ctx packages job s2 with ⟨evs2, r2⟩
  cases r2 <;> simp

/-- Claim C4: in a two-step job where step 1's command fails, an effective
`continue_on_error = true` on step 1 still executes step 2 and records the
failure (a non-fatal `command_error`), while `continue_on_error = false`
never executes step 2, aborts the job with the step error, and the job is
reported `failed` by the job loop. -/
theorem continue_on_error_two_steps (ctx : RunCtx) (c1 c2 st : String) (pkg : Package)
    (b : Bool) (hdry : ctx.dry_run = false)
    (hs1 : ctx.spawn (sh_cmd c1 ctx.workspace_root) = .exited false st) :
    (b = true →
      dispatches (run_job ctx [pkg] (two_step_job c1 c2 b)).1 =
        [sh_cmd c1 ctx.workspace_root, sh_cmd c2 ctx.workspace_root] ∧
      Event.command_error "unable to run step" false ∈
        (run_job ctx [pkg] (two_step_job c1 c2 b)).1) ∧
    (b = false →
      dispatches (run_job ctx [pkg] (two_step_job c1 c2 b)).1 =
        [sh_cmd c1 ctx.workspace_root] ∧
      (run_job ctx [pkg] (two_step_job c1 c2 b)).2 =
        .error ("unable to run step " ++ s!"\x27{c1}\x27" ++ ": " ++ st) ∧
      Event.complete_activity "failed" ∈
        (run_jobs_loop ctx [("j", two_step_job c1 c2 b)] [pkg] ["j"]).1 ∧
      (run_jobs_loop ctx [("j", two_step_job c1 c2 b)] [pkg] ["j"]).2 =
        .error ("unable to run step " ++ s!"\x27{c1}\x27" ++ ": " ++ st)) := by
  cases b with
  | false =>
    refine ⟨(fun hb => nomatch hb), fun _ => ?_⟩
    have hws := run_step_ws_fail_abort ctx (two_step_job c1 c2 false)
      (Step.extended c1 none none (.bool true) (.bool false) false []) st hdry rfl hs1
    have hfilter : filter_step_packages ctx (two_step_job c1 c2 false)
        (Step.extended c1 none none (.bool true) (.bool false) false []) [pkg] =
        ([], .ok [pkg]) :=
      filter_all_true _ _ _ _ rfl rfl
    have hstep : run_step ctx [pkg] (two_step_job c1 c2 false)
        (Step.extended c1 none none (.bool true) (.bool false) false []) =
        run_step_ws ctx (two_step_job c1 c2 false)
          (Step.extended c1 none none (.bool true) (.bool false) false []) := by
      simp [run_step, hfilter, Step.per_package]
    rw [hws] at hstep
    have hjob := run_job_two_fail ctx [pkg] (two_step_job c1 c2 false) _ (Step.simple c2) _ _
      rfl hstep
    have hloop := run_jobs_loop_single_fail ctx "j" (two_step_job c1 c2 false) [pkg] _ _
      rfl rfl hjob
    rw [hjob, hloop]
    refine ⟨?_, ?_, ?_, ?_⟩
    · simp [dispatches, make_command, sh_cmd, Step.command]
    · rfl
    · simp
    · rfl
  | true =>
    refine ⟨fun _ => ?_, (fun hb => nomatch hb)⟩
    have hws := run_step_ws_fail_continue ctx (two_step_job c1 c2 true)
      (Step.extended c1 none none (.bool true) (.bool true) false []) st hdry rfl hs1
    have hfilter : filter_step_packages ctx (two_step_job c1 c2 true)
        (Step.extended c1 none none (.bool true) (.bool true) false []) [pkg] =
        ([], .ok [pkg]) :=
      filter_all_true _ _ _ _ rfl rfl
    have hstep : run_step ctx [pkg] (two_step_job c1 c2 true)
        (Step.extended c1 none none (.bool true) (.bool true) false []) =
        run_step_ws ctx (two_step_job c1 c2 true)
          (Step.extended c1 none none (.bool true) (.bool true) false []) := by
      simp [run_step, hfilter, Step.per_package]
    rw [hws] at hstep
    have hjob := run_job_two_ok ctx [pkg] (two_step_job c1 c2 true) _ (Step.simple c2) _
      rfl hstep
    have hfilter2 : filter_step_packages ctx (two_step_job c1 c2 true) (Step.simple c2)
        [pkg] = ([], .ok [pkg]) :=
      filter_all_true _ _ _ _ rfl rfl
    have hstep2 : run_step ctx [pkg] (two_step_job c1 c2 true) (Step.simple c2) =
        run_step_ws ctx (two_step_job c1 c2 true) (Step.simple c2) := by
      simp [run_step, hfilter2, Step.per_package]
    have hd2 := run_step_ws_dispatches ctx (two_step_job c1 c2 true) (Step.simple c2) false
      hdry rfl
    constructor
    · rw [hjob, dispatches_append, hstep2, hd2]
      simp [dispatches, make_command, sh_cmd, Step.command]
    · rw [hjob]
      simp

end CargoCI

namespace CargoCI

/-- Witness for C4 at a concrete input (`bad` fails, `ok` succeeds). -/
theorem continue_on_error_two_steps_witness :
    (dispatches (run_job ctx_fail [pkg0] (two_step_job "bad" "ok" true)).1 =
        [sh_cmd "bad" "/ws", sh_cmd "ok" "/ws"] ∧
      Event.command_error "unable to run step" false ∈
        (run_job ctx_fail [pkg0] (two_step_job "bad" "ok" true)).1) ∧
    (dispatches (run_job ctx_fail [pkg0] (two_step_job "bad" "ok" false)).1 =
        [sh_cmd "bad" "/ws"] ∧
      (run_jobs_loop ctx_fail [("j", two_step_job "bad" "ok" false)] [pkg0] ["j"]).2 =
        .error ("unable to run step " ++ s!"\x27bad\x27" ++ ": " ++ "exit status: 1")) := by
  constructor
  · exact (continue_on_error_two_steps ctx_fail "bad" "ok" "exit status: 1" pkg0 true rfl
      (by decide)).1 rfl
  · have h := (continue_on_error_two_steps ctx_fail "bad" "ok" "exit status: 1" pkg0 false rfl
      (by decide)).2 rfl
    exact ⟨h.1, h.2.2.2⟩

/-- Helper: an event list with no dispatch events has an empty dispatch
list. -/
theorem dispatches_eq_nil {evs : List Event}
    (h : ∀ c, Event.dispatch c ∉ evs) : dispatches evs = [] := by
  induction evs with
  | nil => rfl
  | cons e rest ih =>
    have hr := ih (fun c hc => h c (List.mem_cons_of_mem e hc))
    cases e with
    | dispatch c => exact absurd (List.mem_cons_self _ rest) (h c)
    | start_activity m => simpa [dispatches] using hr
    | complete_activity m => simpa [dispatches] using hr
    | message m => simpa [dispatches] using hr
    | run_command m => simpa [dispatches] using hr
    | command_error m f => simpa [dispatches] using hr

/-- Helper: in dry-run mode the per-package loop spawns nothing. -/
theorem run_step_per_pkg_dry (ctx : RunCtx) (job : Job) (step : Step)
    (hdry : ctx.dry_run = true) (pkgs : List Package) (c : Cmd) :
    Event.dispatch c ∉ (run_step_per_pkg ctx job step pkgs).1 := by
  induction pkgs with
  | nil => simp [run_step_per_pkg]
  | cons pkg rest ih =>
    intro h
    simp only [run_step_per_pkg] at h
    split at h
    · simp at h
    · rw [hdry] at h
      rcases hrest : run_step_per_pkg ctx job step rest with ⟨evs, r⟩
      rw [hrest] at h
      simp at h
      exact ih (by rw [hrest]; simpa using h)

/-- Helper: in dry-run mode the workspace-root execution spawns nothing. -/
theorem run_step_ws_dry (ctx : RunCtx) (job : Job) (step : Step)
    (hdry : ctx.dry_run = true) (c : Cmd) :
    Event.dispatch c ∉ (run_step_ws ctx job step).1 := by
  intro h
  simp only [run_step_ws] at h
  split at h
  · simp at h
  · rw [hdry] at h
    simp at h

/-- Helper: in dry-run mode one step spawns nothing. -/
theorem run_step_dry (ctx : RunCtx) (packages : List Package) (job : Job) (step : Step)
    (hdry : ctx.dry_run = true) (c : Cmd) :
    Event.dispatch c ∉ (run_step ctx packages job step).1 := by
  intro h
  simp only [run_step] at h
  split at h
  · exact filter_step_packages_no_dispatch ctx job step packages c h
  · split at h <;> rw [List.mem_append] at h <;> rcases h with h | h
    · exact filter_step_packages_no_dispatch ctx job step packages c h
    · exact run_step_per_pkg_dry ctx job step hdry _ c h
    · exact filter_step_packages_no_dispatch ctx job step packages c h
    · exact run_step_ws_dry ctx job step hdry c h

/-- Helper: in dry-run mode a whole job spawns nothing. -/
theorem run_job_steps_dry (ctx : RunCtx) (packages : List Package) (job : Job)
    (steps : List Step) (hdry : ctx.dry_run = true) (c : Cmd) :
    Event.dispatch c ∉ (run_job_steps ctx packages job steps).1 := by
  induction steps with
  | nil => simp [run_job_steps]
  | cons step rest ih =>
    intro h
    simp only [run_job_steps] at h
    rcases hs : run_step ctx packages job step with ⟨evs, r⟩
    rw [hs] at h
    cases r with
    | error e =>
      simp at h
      exact run_step_dry ctx packages job step hdry c (by rw [hs]; simpa using h)
    | ok u =>
      rcases hrest : run_job_steps ctx packages job rest with ⟨evs1, r1⟩
      rw [hrest] at h
      simp at h
      rcases h with h | h
      · exact run_step_dry ctx packages job step hdry c (by rw [hs]; simpa using h)
      · exact ih (by rw [hrest]; simpa using h)

/-- Helper: in dry-run mode the whole job loop spawns nothing. -/
theorem run_jobs_loop_dry (ctx : RunCtx) (jobs : Jobs) (packages : List Package)
    (ids : List String) (hdry : ctx.dry_run = true) (c : Cmd) :
    Event.dispatch c ∉ (run_jobs_loop ctx jobs packages ids).1 := by
  induction ids with
  | nil => simp [run_jobs_loop]
  | cons id rest ih =>
    intro h
    simp only [run_jobs_loop] at h
    split at h
    · simp at h
    · rename_i job hjob_eq
      split at h
      · simp at h
      · rename_i coe heval
        rcases hj : run_job ctx packages job with ⟨jevs, r⟩
        rw [hj] at h
        have hjd : Event.dispatch c ∉ jevs := by
          have h0 := run_job_steps_dry ctx packages job job.steps hdry c
          rw [show run_job_steps ctx packages job job.steps = run_job ctx packages job
            from rfl, hj] at h0
          simpa using h0
        cases r with
        | ok u =>
          rcases hrest : run_jobs_loop ctx jobs packages rest with ⟨revs, rr⟩
          rw [hrest] at h
          simp at h
          rcases h with h | h
          · exact hjd h
          · exact ih (by rw [hrest]; simpa using h)
        | error e =>
          by_cases hcoe : coe = true
          · simp [hcoe] at h
            rcases h with h | h
            · exact hjd h
            · exact ih h
          · simp [hcoe] at h
            exact hjd h

end CargoCI

namespace CargoCI

/-- Claim C9: in dry-run mode no step command is ever handed to the
process-execution collaborator — neither by a single job nor by the whole job
loop — while condition and continue-on-error expressions are still evaluated
eagerly, so their evaluation errors are still raised. -/
theorem dry_run_no_dispatch_but_evaluates :
    (∀ (ctx : RunCtx) (packages : List Package) (job : Job),
        ctx.dry_run = true → dispatches (run_job ctx packages job).1 = []) ∧
    (∀ (ctx : RunCtx) (jobs : Jobs) (packages : List Package) (ids : List String),
        ctx.dry_run = true → dispatches (run_jobs_loop ctx jobs packages ids).1 = []) ∧
    (∀ (ctx : RunCtx) (pkg : Package) (f : ExprFn) (m : String),
        ctx.dry_run = true →
        f (lookup_var (coe_chain ctx (job_coe_expr f))) = .error m →
        (run_job ctx [pkg] (job_coe_expr f)).2 = .error m) ∧
    (∀ (ctx : RunCtx) (pkg : Package) (g : ExprFn) (m : String),
        g (lookup_var (job_cond_chain ctx pkg)) = .error m →
        (run_job ctx [pkg] (job_cond_expr g)).2 = .error m) := by
  refine ⟨?_, ?_, ?_, ?_⟩
  · intro ctx packages job hdry
    exact dispatches_eq_nil (fun c => run_job_steps_dry ctx packages job job.steps hdry c)
  · intro ctx jobs packages ids hdry
    exact dispatches_eq_nil (fun c => run_jobs_loop_dry ctx jobs packages ids hdry c)
  · intro ctx pkg f m hdry hf
    have hfilter : filter_step_packages ctx (job_coe_expr f)
        (Step.extended "c" none none (.bool true) (.expr f) false []) [pkg] =
        ([], .ok [pkg]) :=
      filter_all_true _ _ _ _ rfl rfl
    have hws : run_step_ws ctx (job_coe_expr f)
        (Step.extended "c" none none (.bool true) (.expr f) false []) = ([], .error m) := by
      simp only [run_step_ws, Step.continue_on_error, ContinueOnError.evaluate, hf]
    have hstep : run_step ctx [pkg] (job_coe_expr f)
        (Step.extended "c" none none (.bool true) (.expr f) false []) = ([], .error m) := by
      simp [run_step, hfilter, Step.per_package, hws]
    have hsteps : (job_coe_expr f).steps =
        [Step.extended "c" none none (.bool true) (.expr f) false []] := rfl
    simp only [run_job, hsteps, run_job_steps, hstep]
  · intro ctx pkg g m hg
    have hfilter : filter_step_packages ctx (job_cond_expr g) (Step.simple "c") [pkg] =
        ([], .error m) := by
      simp only [filter_step_packages, job_cond_expr, Conditional.evaluate, hg]
    have hstep : run_step ctx [pkg] (job_cond_expr g) (Step.simple "c") =
        ([], .error m) := by
      simp [run_step, hfilter]
    have hsteps : (job_cond_expr g).steps = [Step.simple "c"] := rfl
    simp only [run_job, hsteps, run_job_steps, hstep]

/-- Witness for C9 at concrete inputs. -/
theorem dry_run_no_dispatch_but_evaluates_witness :
    dispatches (run_job ctx_dry [pkg0] (two_step_job "bad" "ok" false)).1 = [] ∧
    (run_job ctx_dry [pkg0] (job_coe_expr (fun _ => .error "bad coe"))).2 =
      .error "bad coe" ∧
    (run_job ctx_dry [pkg0] (job_cond_expr (fun _ => .error "bad cond"))).2 =
      .error "bad cond" := by
  refine ⟨?_, ?_, ?_⟩
  · exact dry_run_no_dispatch_but_evaluates.1 ctx_dry [pkg0] (two_step_job "bad" "ok" false)
      rfl
  · exact dry_run_no_dispatch_but_evaluates.2.2.1 ctx_dry pkg0 (fun _ => .error "bad coe")
      "bad coe" rfl rfl
  · exact dry_run_no_dispatch_but_evaluates.2.2.2 ctx_dry pkg0 (fun _ => .error "bad cond")
      "bad cond" rfl

end CargoCI

namespace CargoCI

/-- Helper: wrapping decrement of zero is `2 ^ 64 - 1`. -/
theorem dec_wrap_zero : dec_wrap 0 = 2 ^ 64 - 1 := by
  have h : (0 + (2 ^ 64 - 1)) = 2 ^ 64 - 1 := by omega
  rw [dec_wrap, h]
  exact Nat.mod_eq_of_lt (by norm_num)

/-- Helper: wrapping decrement of a positive in-range value is plain
decrement. -/
theorem dec_wrap_of_pos {d : Nat} (h1 : 1 ≤ d) (h2 : d < 2 ^ 64) :
    dec_wrap d = d - 1 := by
  have h : d + (2 ^ 64 - 1) = (d - 1) + 2 ^ 64 := by omega
  rw [dec_wrap, h, Nat.add_mod_right]
  exact Nat.mod_eq_of_lt (by omega)

/-- Helper: the wrapping decrement stays below `2 ^ 64`. -/
theorem dec_wrap_lt (d : Nat) : dec_wrap d < 2 ^ 64 :=
  Nat.mod_lt _ (by norm_num)

/-- Helper: for in-range values the wrapping decrement hits zero exactly at
one. -/
theorem dec_wrap_eq_zero_iff {d : Nat} (h : d < 2 ^ 64) :
    dec_wrap d = 0 ↔ d = 1 := by
  constructor
  · intro h0
    by_contra hne
    rcases Nat.eq_zero_or_pos d with hd | hd
    · rw [hd, dec_wrap_zero] at h0
      omega
    · rw [dec_wrap_of_pos hd h] at h0
      omega
  · intro h1
    subst h1
    rw [dec_wrap_of_pos (by omega) h]

/-- Helper: under nodup keys, a map entry determines `get_job`. -/
theorem get_job_of_mem {jobs : Jobs} (hkeys : (keys jobs).Nodup)
    {x : String} {j : Job} (h : (x, j) ∈ jobs) : jobs.get_job x = some j := by
  induction jobs with
  | nil => simp at h
  | cons p rest ih =>
    rcases List.mem_cons.mp h with h1 | h1
    · rw [← h1]
      simp [Jobs.get_job, List.find?]
    · have hx : x ∈ keys rest := List.mem_map_of_mem (fun q => q.1) h1
      have hne : p.1 ≠ x := by
        intro he
        rw [keys, List.map_cons] at hkeys
        exact (List.nodup_cons.mp hkeys).1 (he ▸ hx)
      have hrest : (keys rest).Nodup := by
        rw [keys, List.map_cons] at hkeys
        exact (List.nodup_cons.mp hkeys).2
      have := ih hrest h1
      simp only [Jobs.get_job, List.find?] at this ⊢
      rw [show (p.1 == x) = false from beq_eq_false_iff_ne.mpr hne]
      exact this

/-- Helper: `get_job` finds only keys. -/
theorem mem_keys_of_get_job {jobs : Jobs} {x : String} {j : Job}
    (h : jobs.get_job x = some j) : x ∈ keys jobs ∧ (x, j) ∈ jobs := by
  induction jobs with
  | nil => simp [Jobs.get_job] at h
  | cons p rest ih =>
    simp only [Jobs.get_job, List.find?] at h
    cases hbe : (p.1 == x) with
    | true =>
      rw [hbe] at h
      simp at h
      have hx : p.1 = x := beq_iff_eq.mp hbe
      refine ⟨by rw [keys]; simp [hx], ?_⟩
      have : p = (x, j) := by
        rcases p with ⟨a, b⟩
        simp at hx h
        rw [hx, h]
      simp [this]
    | false =>
      rw [hbe] at h
      have := ih (by simpa [Jobs.get_job] using h)
      exact ⟨by rw [keys]; simp [keys] at this; simp [this.1], List.mem_cons_of_mem p this.2⟩

/-- Helper: a key has a `get_job` entry. -/
theorem get_job_isSome_of_mem_keys {jobs : Jobs} {x : String} (h : x ∈ keys jobs) :
    (jobs.get_job x).isSome := by
  induction jobs with
  | nil => simp [keys] at h
  | cons q rest ih =>
    simp only [Jobs.get_job, List.find?]
    cases hbe : (q.1 == x) with
    | true => simp
    | false =>
      have hx : x ∈ keys rest := by
        have h2 : x = q.1 ∨ ∃ j, (x, j) ∈ rest := by simpa [keys] using h
        rcases h2 with h1 | ⟨j, hj⟩
        · exact absurd (beq_iff_eq.mpr h1.symm) (by simp [hbe])
        · rw [keys]
          exact List.mem_map_of_mem (fun p => p.1) hj
      have h2 := ih hx
      simpa [Jobs.get_job] using h2

/-- Helper: a nonempty needs list certifies a key. -/
theorem mem_keys_of_needs {jobs : Jobs} {x n : String} (h : n ∈ needs_of jobs x) :
    x ∈ keys jobs := by
  rw [needs_of] at h
  cases hj : jobs.get_job x with
  | none => rw [hj] at h; simp at h
  | some j => exact (mem_keys_of_get_job hj).1

end CargoCI

namespace CargoCI

/-- Helper: pointwise description of one decrement pass of
`topological_sort`.  The degree of exactly the requested jobs that need the
popped id is wrap-decremented, and the jobs whose degree reaches zero are
appended to the queue in map order. -/
theorem process_pop_spec (subset : List String) (popped : String) :
    ∀ (js : Jobs) (indeg : String → Nat) (queue : List String),
      (keys js).Nodup →
      (∀ x, (process_pop js subset popped (indeg, queue)).1 x =
        if x ∈ keys (js.filter (fun p => p.2.needs.contains popped && subset.contains p.1))
        then dec_wrap (indeg x) else indeg x) ∧
      (process_pop js subset popped (indeg, queue)).2 =
        queue ++ (js.filter (fun p => p.2.needs.contains popped && subset.contains p.1 &&
          (dec_wrap (indeg p.1) == 0))).map (fun p => p.1) := by
  intro js
  induction js with
  | nil =>
    intro indeg queue _
    exact ⟨fun x => by simp [process_pop, keys], by simp [process_pop]⟩
  | cons p rest ih =>
    intro indeg queue hnd
    rw [show keys (p :: rest) = p.1 :: keys rest from rfl] at hnd
    have hnd0 := List.nodup_cons.mp hnd
    have hnd1 : (keys rest).Nodup := hnd0.2
    have hp_notin : p.1 ∉ keys rest := hnd0.1
    have hfold : process_pop (p :: rest) subset popped (indeg, queue) =
        process_pop rest subset popped
          (if p.2.needs.contains popped && subset.contains p.1 then
            ((fun x => if x = p.1 then dec_wrap (indeg p.1) else indeg x),
             if dec_wrap (indeg p.1) = 0 then queue ++ [p.1] else queue)
          else (indeg, queue)) := rfl
    have hfc1 : ∀ (b : Bool), (p.2.needs.contains popped && subset.contains p.1) = b →
        (p :: rest).filter (fun q => q.2.needs.contains popped && subset.contains q.1) =
        (if b then [p] else []) ++
          rest.filter (fun q => q.2.needs.contains popped && subset.contains q.1) := by
      intro b hb
      cases b with
      | false => simp only [List.filter_cons, hb, Bool.false_eq_true, if_false,
          List.nil_append]
      | true => simp only [List.filter_cons, hb, if_true, List.singleton_append]
    cases hg : (p.2.needs.contains popped && subset.contains p.1) with
    | false =>
      rw [hfold, hg]
      simp only [Bool.false_eq_true, if_false]
      have hrec := ih indeg queue hnd1
      have hfc2 : (p :: rest).filter (fun q => q.2.needs.contains popped &&
            subset.contains q.1 && (dec_wrap (indeg q.1) == 0)) =
          rest.filter (fun q => q.2.needs.contains popped && subset.contains q.1 &&
            (dec_wrap (indeg q.1) == 0)) := by
        have hb : (p.2.needs.contains popped && subset.contains p.1 &&
            (dec_wrap (indeg p.1) == 0)) = false := by rw [hg]; simp
        simp only [List.filter_cons, hb, Bool.false_eq_true, if_false]
      refine ⟨fun x => ?_, ?_⟩
      · rw [hrec.1 x, hfc1 false hg]
        simp
      · rw [hrec.2, hfc2]
    | true =>
      rw [hfold, hg]
      simp only [if_true]
      have hrec := ih (fun x => if x = p.1 then dec_wrap (indeg p.1) else indeg x)
        (if dec_wrap (indeg p.1) = 0 then queue ++ [p.1] else queue) hnd1
      have hkeys_cons : keys ((p :: rest).filter (fun q => q.2.needs.contains popped &&
            subset.contains q.1)) =
          p.1 :: keys (rest.filter (fun q => q.2.needs.contains popped &&
            subset.contains q.1)) := by
        rw [hfc1 true hg]
        rfl
      refine ⟨fun x => ?_, ?_⟩
      · rw [hrec.1 x, hkeys_cons]
        by_cases hx : x = p.1
        · subst hx
          have hnot : p.1 ∉ keys (rest.filter
              (fun q => q.2.needs.contains popped && subset.contains q.1)) := by
            intro hmem
            apply hp_notin
            rw [keys] at hmem ⊢
            rcases List.mem_map.mp hmem with ⟨q, hq, hqx⟩
            exact hqx ▸ List.mem_map_of_mem _ (List.mem_of_mem_filter hq)
          rw [if_neg hnot, if_pos (List.mem_cons_self _ _)]
          simp
        · by_cases hmem : x ∈ keys (rest.filter
              (fun q => q.2.needs.contains popped && subset.contains q.1))
          · rw [if_pos hmem, if_pos (List.mem_cons_of_mem _ hmem)]
            simp [hx]
          · rw [if_neg hmem, if_neg (fun hc => (List.mem_cons.mp hc).elim hx hmem)]
            simp [hx]
      · rw [hrec.2]
        have hcong : rest.filter (fun q => q.2.needs.contains popped && subset.contains q.1 &&
              (dec_wrap (if q.1 = p.1 then dec_wrap (indeg p.1) else indeg q.1) == 0)) =
            rest.filter (fun q => q.2.needs.contains popped && subset.contains q.1 &&
              (dec_wrap (indeg q.1) == 0)) := by
          apply List.filter_congr
          intro q hq
          have hqne : q.1 ≠ p.1 := by
            intro he
            exact hp_notin (he ▸ List.mem_map_of_mem (fun r => r.1) hq)
          rw [if_neg hqne]
        rw [hcong]
        have hb0 : ∀ (b0 : Bool), (dec_wrap (indeg p.1) == 0) = b0 →
            (p :: rest).filter (fun q => q.2.needs.contains popped && subset.contains q.1 &&
              (dec_wrap (indeg q.1) == 0)) =
            (if b0 then [p] else []) ++
              rest.filter (fun q => q.2.needs.contains popped && subset.contains q.1 &&
                (dec_wrap (indeg q.1) == 0)) := by
          intro b0 hb
          have hcomb : (p.2.needs.contains popped && subset.contains p.1 &&
              (dec_wrap (indeg p.1) == 0)) = b0 := by rw [hg, hb]; simp
          cases b0 with
          | false => simp only [List.filter_cons, hcomb, Bool.false_eq_true, if_false,
              List.nil_append]
          | true => simp only [List.filter_cons, hcomb, if_true, List.singleton_append]
        by_cases hd : dec_wrap (indeg p.1) = 0
        · rw [if_pos hd, hb0 true (by simp [hd])]
          simp
        · rw [if_neg hd, hb0 false (by simp [hd])]
          simp

end CargoCI

namespace CargoCI

/-- Helper: membership in the decremented key set of one pass. -/
theorem mem_hit_keys_iff {jobs : Jobs} (hkeys : (keys jobs).Nodup) (subset : List String)
    (popped x : String) :
    (x ∈ keys (jobs.filter (fun p => p.2.needs.contains popped && subset.contains p.1)) ↔
      popped ∈ needs_of jobs x ∧ x ∈ subset) := by
  constructor
  · intro h
    rw [keys] at h
    rcases List.mem_map.mp h with ⟨q, hq, hqx⟩
    have hq2 := List.mem_filter.mp hq
    have hget := get_job_of_mem hkeys hq2.1
    have hcond := (Bool.and_eq_true _ _).mp hq2.2
    subst hqx
    constructor
    · rw [needs_of, hget]
      simpa using hcond.1
    · simpa using hcond.2
  · rintro ⟨h1, h2⟩
    rw [needs_of] at h1
    cases hget : jobs.get_job x with
    | none => rw [hget] at h1; simp at h1
    | some j =>
      rw [hget] at h1
      have hmem := (mem_keys_of_get_job hget).2
      rw [keys]
      refine List.mem_map.mpr ⟨(x, j), List.mem_filter.mpr ⟨hmem, ?_⟩, rfl⟩
      simp [h1, h2]

/-- Helper: membership in the newly enqueued ids of one pass. -/
theorem mem_newly_iff {jobs : Jobs} (hkeys : (keys jobs).Nodup) (subset : List String)
    (popped x : String) (indeg : String → Nat) :
    (x ∈ (jobs.filter (fun p => p.2.needs.contains popped && subset.contains p.1 &&
        (dec_wrap (indeg p.1) == 0))).map (fun p => p.1) ↔
      popped ∈ needs_of jobs x ∧ x ∈ subset ∧ dec_wrap (indeg x) = 0) := by
  constructor
  · intro h
    rcases List.mem_map.mp h with ⟨q, hq, hqx⟩
    have hq2 := List.mem_filter.mp hq
    have hget := get_job_of_mem hkeys hq2.1
    have hcond := (Bool.and_eq_true _ _).mp hq2.2
    have hcond1 := (Bool.and_eq_true _ _).mp hcond.1
    subst hqx
    refine ⟨?_, ?_, ?_⟩
    · rw [needs_of, hget]
      simpa using hcond1.1
    · simpa using hcond1.2
    · simpa using hcond.2
  · rintro ⟨h1, h2, h3⟩
    rw [needs_of] at h1
    cases hget : jobs.get_job x with
    | none => rw [hget] at h1; simp at h1
    | some j =>
      rw [hget] at h1
      have hmem := (mem_keys_of_get_job hget).2
      refine List.mem_map.mpr ⟨(x, j), List.mem_filter.mpr ⟨hmem, ?_⟩, rfl⟩
      simp [h1, h2, h3]

/-- Helper: the newly enqueued ids of one pass are distinct. -/
theorem newly_nodup {jobs : Jobs} (hkeys : (keys jobs).Nodup) (subset : List String)
    (popped : String) (indeg : String → Nat) :
    ((jobs.filter (fun p => p.2.needs.contains popped && subset.contains p.1 &&
        (dec_wrap (indeg p.1) == 0))).map (fun p => p.1)).Nodup := by
  have hsub : (jobs.filter (fun p => p.2.needs.contains popped && subset.contains p.1 &&
      (dec_wrap (indeg p.1) == 0))).Sublist jobs := List.filter_sublist _
  exact (hsub.map (fun p => p.1)).nodup (by rw [keys] at hkeys; exact hkeys)

end CargoCI

namespace CargoCI

/-- Helper: `count_rem` in propositional form. -/
theorem count_rem_eq_decide (jobs : Jobs) (subset sorted : List String) (x : String) :
    count_rem jobs subset sorted x =
      ((needs_of jobs x).filter (fun n => decide (n ∈ subset ∧ n ∉ sorted))).length := by
  rw [count_rem]
  congr 1
  apply List.filter_congr
  intro n _
  simp [List.contains, List.elem_eq_mem]

/-- Helper: emitting a needed id decrements `count_rem` by exactly one. -/
theorem count_rem_append_of_mem (jobs : Jobs) (subset sorted : List String) (x id : String)
    (hnd : (needs_of jobs x).Nodup)
    (hid : id ∈ needs_of jobs x) (hid_sub : id ∈ subset) (hid_sort : id ∉ sorted) :
    count_rem jobs subset (sorted ++ [id]) x + 1 = count_rem jobs subset sorted x := by
  rw [count_rem_eq_decide, count_rem_eq_decide]
  have hsplit : (needs_of jobs x).filter (fun n => decide (n ∈ subset ∧ n ∉ sorted ++ [id])) =
      ((needs_of jobs x).filter (fun n => decide (n ∈ subset ∧ n ∉ sorted))).filter
        (fun n => n != id) := by
    rw [List.filter_filter]
    apply List.filter_congr
    intro n _
    by_cases h1 : n = id
    · subst h1
      simp
    · by_cases h2 : n ∈ subset <;> by_cases h3 : n ∈ sorted <;> simp [h1, h2, h3]
  rw [hsplit]
  have hmem : id ∈ (needs_of jobs x).filter (fun n => decide (n ∈ subset ∧ n ∉ sorted)) :=
    List.mem_filter.mpr ⟨hid, by simp [hid_sub, hid_sort]⟩
  have hnd2 : ((needs_of jobs x).filter
      (fun n => decide (n ∈ subset ∧ n ∉ sorted))).Nodup :=
    hnd.filter _
  rw [← List.Nodup.erase_eq_filter hnd2 id, List.length_erase_of_mem hmem]
  have : 1 ≤ ((needs_of jobs x).filter
      (fun n => decide (n ∈ subset ∧ n ∉ sorted))).length :=
    List.length_pos.mpr (List.ne_nil_of_mem hmem)
  omega

/-- Helper: emitting an unneeded id leaves `count_rem` unchanged. -/
theorem count_rem_append_of_not_mem (jobs : Jobs) (subset sorted : List String)
    (x id : String) (hid : id ∉ needs_of jobs x) :
    count_rem jobs subset (sorted ++ [id]) x = count_rem jobs subset sorted x := by
  rw [count_rem_eq_decide, count_rem_eq_decide]
  congr 1
  apply List.filter_congr
  intro n hn
  have hne : n ≠ id := fun he => hid (he ▸ hn)
  by_cases h2 : n ∈ subset <;> by_cases h3 : n ∈ sorted <;> simp [hne, h2, h3]

/-- Helper: a positive `count_rem` exhibits an unemitted subset need. -/
theorem count_rem_pos_elim {jobs : Jobs} {subset sorted : List String} {x : String}
    (h : 1 ≤ count_rem jobs subset sorted x) :
    ∃ n, n ∈ needs_of jobs x ∧ n ∈ subset ∧ n ∉ sorted := by
  rw [count_rem_eq_decide] at h
  have hne := List.length_pos.mp h
  rcases List.exists_mem_of_ne_nil _ hne with ⟨n, hn⟩
  have h2 := List.mem_filter.mp hn
  refine ⟨n, h2.1, ?_⟩
  simpa using h2.2

/-- Helper: a zero `count_rem` means every subset need was emitted. -/
theorem count_rem_zero_elim {jobs : Jobs} {subset sorted : List String} {x : String}
    (h : count_rem jobs subset sorted x = 0) :
    ∀ n ∈ needs_of jobs x, n ∈ subset → n ∈ sorted := by
  intro n hn hns
  by_contra hno
  rw [count_rem_eq_decide] at h
  have : n ∈ (needs_of jobs x).filter (fun n => decide (n ∈ subset ∧ n ∉ sorted)) :=
    List.mem_filter.mpr ⟨hn, by simp [hns, hno]⟩
  rw [List.length_eq_zero.mp h] at this
  simp at this

/-- Helper: `count_rem` is bounded by the length of the needs list. -/
theorem count_rem_le (jobs : Jobs) (subset sorted : List String) (x : String) :
    count_rem jobs subset sorted x ≤ (needs_of jobs x).length :=
  List.length_filter_le _ _

/-- Helper: the initial in-degree is `count_rem` with nothing emitted. -/
theorem init_in_degree_eq (jobs : Jobs) (subset : List String) (x : String) :
    init_in_degree jobs subset x = count_rem jobs subset [] x := by
  rw [init_in_degree, count_rem, needs_of]
  cases hget : jobs.get_job x with
  | none => simp
  | some j => simp

end CargoCI

namespace CargoCI

/-- Helper: needs lists are duplicate-free when every job's needs set is. -/
theorem needs_of_nodup {jobs : Jobs} (h : ∀ p ∈ jobs, p.2.needs.Nodup) (x : String) :
    (needs_of jobs x).Nodup := by
  rw [needs_of]
  cases hget : jobs.get_job x with
  | none => simp
  | some j => exact h _ (mem_keys_of_get_job hget).2

/-- Helper: needs lists are in machine range when every job's needs list
is. -/
theorem needs_of_len_lt {jobs : Jobs} (h : ∀ p ∈ jobs, p.2.needs.length < 2 ^ 64)
    (x : String) : (needs_of jobs x).length < 2 ^ 64 := by
  rw [needs_of]
  cases hget : jobs.get_job x with
  | none => simp
  | some j => exact h _ (mem_keys_of_get_job hget).2

/-- Helper: appending an id whose subset needs were all emitted preserves the
ordering property. -/
theorem ordered_by_needs_append {jobs : Jobs} {subset sorted : List String} {id : String}
    (hord : ordered_by_needs jobs subset sorted)
    (hnotin : id ∉ sorted)
    (hready : ∀ n ∈ needs_of jobs id, n ∈ subset → n ∈ sorted) :
    ordered_by_needs jobs subset (sorted ++ [id]) := by
  intro x n hx hn hns
  rcases List.mem_append.mp hx with hx1 | hx1
  · have hlt := hord x n hx1 hn hns
    have hnmem : n ∈ sorted := List.indexOf_lt_length.mp (by
      exact lt_of_lt_of_le hlt (le_of_lt (List.indexOf_lt_length.mpr hx1)))
    rw [List.indexOf_append_of_mem hnmem, List.indexOf_append_of_mem hx1]
    exact hlt
  · have hxid : x = id := by simpa using hx1
    subst hxid
    have hnmem : n ∈ sorted := hready n hn hns
    rw [List.indexOf_append_of_mem hnmem, List.indexOf_append_of_not_mem hnotin]
    calc sorted.indexOf n < sorted.length := List.indexOf_lt_length.mpr hnmem
    _ ≤ sorted.length + [x].indexOf x := Nat.le_add_right _ _

end CargoCI

namespace CargoCI

/-- Helper: the Kahn worklist loop preserves its invariant and, given enough
fuel (one unit per possible enqueue), drains the queue; the output extends
the emitted prefix, stays inside the subset without duplicates, is ordered by
needs, and leaves only jobs with an unemitted subset need. -/
theorem kahn_loop_spec (jobs : Jobs) (subset : List String)
    (hkeys : (keys jobs).Nodup)
    (hsubk : ∀ x ∈ subset, x ∈ keys jobs)
    (hneedsnd : ∀ p ∈ jobs, p.2.needs.Nodup)
    (hneedslen : ∀ p ∈ jobs, p.2.needs.length < 2 ^ 64)
    (hsize : subset.length + 2 < 2 ^ 64) :
    ∀ (fuel : Nat) (indeg : String → Nat) (queue sorted : List String),
      KahnInv jobs subset indeg queue sorted →
      queue.length + (subset.length - (sorted ++ queue).length) < fuel →
      sorted <+: kahn_loop jobs subset fuel indeg queue sorted ∧
      (kahn_loop jobs subset fuel indeg queue sorted).Nodup ∧
      (∀ x ∈ kahn_loop jobs subset fuel indeg queue sorted, x ∈ subset) ∧
      ordered_by_needs jobs subset (kahn_loop jobs subset fuel indeg queue sorted) ∧
      (∀ x ∈ subset, x ∉ kahn_loop jobs subset fuel indeg queue sorted →
        1 ≤ count_rem jobs subset (kahn_loop jobs subset fuel indeg queue sorted) x) := by
  intro fuel
  induction fuel with
  | zero =>
    intro indeg queue sorted _ hfuel
    omega
  | succ fuel ih =>
    intro indeg queue sorted inv hfuel
    cases queue with
    | nil =>
      have hres : kahn_loop jobs subset (fuel + 1) indeg [] sorted = sorted := rfl
      rw [hres]
      refine ⟨List.prefix_refl _, by simpa using inv.nodup,
        fun x hx => inv.sub x (by simpa using hx), inv.emitted, ?_⟩
      intro x hx hnx
      exact (inv.deg x hx (by simpa using hnx)).2
    | cons id rest =>
      have hid_mem_E : id ∈ sorted ++ id :: rest := by simp
      have hid_sub : id ∈ subset := inv.sub id hid_mem_E
      have hsome : (jobs.get_job id).isSome = true :=
        get_job_isSome_of_mem_keys (hsubk id hid_sub)
      have hunfold : kahn_loop jobs subset (fuel + 1) indeg (id :: rest) sorted =
          kahn_loop jobs subset fuel (process_pop jobs subset id (indeg, rest)).1
            (process_pop jobs subset id (indeg, rest)).2 (sorted ++ [id]) := by
        simp [kahn_loop, hsome]
      obtain ⟨hdeg', hq'⟩ := process_pop_spec subset id jobs indeg rest hkeys
      rcases List.nodup_append.mp inv.nodup with ⟨hsnd, hqnd, hdisj⟩
      have hid_notin_sorted : id ∉ sorted := fun hc => hdisj hc (by simp)
      have hid_notin_rest : id ∉ rest := (List.nodup_cons.mp hqnd).1
      have hrest_nodup : rest.Nodup := (List.nodup_cons.mp hqnd).2
      have hEsub : ∀ x ∈ sorted ++ id :: rest, x ∈ subset := inv.sub
      have hElen : (sorted ++ id :: rest).length ≤ subset.length :=
        (List.Nodup.subperm inv.nodup (fun x hx => hEsub x hx)).length_le
      have hnore : ∀ x ∈ sorted ++ id :: rest, dec_wrap (indeg x) ≠ 0 := by
        intro x hx h0
        rcases inv.emem x hx with h | ⟨h1, h2⟩
        · rw [h, dec_wrap_zero] at h0
          omega
        · have hslen : sorted.length ≤ subset.length := by
            have := hElen
            simp at this
            omega
          have hpos : 1 ≤ indeg x := by omega
          rw [dec_wrap_of_pos hpos h2] at h0
          omega
      have hnew_iff : ∀ x, x ∈ (jobs.filter (fun p => p.2.needs.contains id &&
            subset.contains p.1 && (dec_wrap (indeg p.1) == 0))).map (fun p => p.1) ↔
          id ∈ needs_of jobs x ∧ x ∈ subset ∧ dec_wrap (indeg x) = 0 :=
        fun x => mem_newly_iff hkeys subset id x indeg
      have hnew_nodup := newly_nodup hkeys subset id indeg
      have hnew_notE : ∀ x ∈ (jobs.filter (fun p => p.2.needs.contains id &&
            subset.contains p.1 && (dec_wrap (indeg p.1) == 0))).map (fun p => p.1),
          x ∉ sorted ++ id :: rest := by
        intro x hx hxe
        exact hnore x hxe ((hnew_iff x).mp hx).2.2
      have hassoc : (sorted ++ [id]) ++ ((process_pop jobs subset id (indeg, rest)).2) =
          (sorted ++ id :: rest) ++ (jobs.filter (fun p => p.2.needs.contains id &&
            subset.contains p.1 && (dec_wrap (indeg p.1) == 0))).map (fun p => p.1) := by
        rw [hq']
        simp
      have hready_id : ∀ n ∈ needs_of jobs id, n ∈ subset → n ∈ sorted :=
        inv.qready id (by simp)
      -- the new invariant
      have inv1 : KahnInv jobs subset (process_pop jobs subset id (indeg, rest)).1
          (process_pop jobs subset id (indeg, rest)).2 (sorted ++ [id]) := by
        refine ⟨?_, ?_, ?_, ?_, ?_, ?_⟩
        · rw [hassoc]
          exact List.nodup_append.mpr ⟨inv.nodup, hnew_nodup,
            fun x hx hx2 => hnew_notE x hx2 hx⟩
        · intro x hx
          rw [hassoc] at hx
          rcases List.mem_append.mp hx with hx | hx
          · exact hEsub x hx
          · exact ((hnew_iff x).mp hx).2.1
        · intro x hx hxn
          rw [hassoc] at hxn
          have hxE : x ∉ sorted ++ id :: rest := fun hc => hxn (List.mem_append_left _ hc)
          have hxnew : x ∉ (jobs.filter (fun p => p.2.needs.contains id &&
              subset.contains p.1 && (dec_wrap (indeg p.1) == 0))).map (fun p => p.1) :=
            fun hc => hxn (List.mem_append_right _ hc)
          have hold := inv.deg x hx hxE
          by_cases hhit : id ∈ needs_of jobs x
          · have hin : x ∈ keys (jobs.filter (fun p => p.2.needs.contains id &&
                subset.contains p.1)) := (mem_hit_keys_iff hkeys subset id x).mpr ⟨hhit, hx⟩
            have hni : (process_pop jobs subset id (indeg, rest)).1 x =
                dec_wrap (indeg x) := by rw [hdeg' x, if_pos hin]
            have hlt : count_rem jobs subset sorted x < 2 ^ 64 :=
              lt_of_le_of_lt (count_rem_le jobs subset sorted x) (needs_of_len_lt hneedslen x)
            have hdec : dec_wrap (indeg x) = indeg x - 1 :=
              dec_wrap_of_pos (hold.1 ▸ hold.2) (by rw [hold.1]; exact hlt)
            have hstep := count_rem_append_of_mem jobs subset sorted x id
              (needs_of_nodup hneedsnd x) hhit hid_sub hid_notin_sorted
            have hval : (process_pop jobs subset id (indeg, rest)).1 x =
                count_rem jobs subset (sorted ++ [id]) x := by
              rw [hni, hdec, hold.1]
              omega
            refine ⟨hval, ?_⟩
            by_contra hzero
            have hz : count_rem jobs subset (sorted ++ [id]) x = 0 := by omega
            have hdw0 : dec_wrap (indeg x) = 0 := by
              rw [hdec, hold.1]
              omega
            exact hxnew ((hnew_iff x).mpr ⟨hhit, hx, hdw0⟩)
          · have hnin : x ∉ keys (jobs.filter (fun p => p.2.needs.contains id &&
                subset.contains p.1)) :=
              fun hc => hhit ((mem_hit_keys_iff hkeys subset id x).mp hc).1
            have hni : (process_pop jobs subset id (indeg, rest)).1 x = indeg x := by
              rw [hdeg' x, if_neg hnin]
            rw [hni, count_rem_append_of_not_mem jobs subset sorted x id hhit]
            exact hold
        · intro x hx n hn hns
          rw [hq'] at hx
          rcases List.mem_append.mp hx with hx | hx
          · exact List.mem_append_left _ (inv.qready x (List.mem_cons_of_mem id hx) n hn hns)
          · obtain ⟨hhit, hxsub, hdw0⟩ := (hnew_iff x).mp hx
            have hxE : x ∉ sorted ++ id :: rest := fun hc => hnore x hc hdw0
            have hold := inv.deg x hxsub hxE
            have hlt : count_rem jobs subset sorted x < 2 ^ 64 :=
              lt_of_le_of_lt (count_rem_le jobs subset sorted x) (needs_of_len_lt hneedslen x)
            have hdec : dec_wrap (indeg x) = indeg x - 1 :=
              dec_wrap_of_pos (hold.1 ▸ hold.2) (by rw [hold.1]; exact hlt)
            have hstep := count_rem_append_of_mem jobs subset sorted x id
              (needs_of_nodup hneedsnd x) hhit hid_sub hid_notin_sorted
            have hz : count_rem jobs subset (sorted ++ [id]) x = 0 := by
              rw [hdec, hold.1] at hdw0
              omega
            exact count_rem_zero_elim hz n hn hns
        · exact ordered_by_needs_append inv.emitted hid_notin_sorted hready_id
        · intro x hx
          rw [hassoc] at hx
          have hlen1 : (sorted ++ [id]).length = sorted.length + 1 := by simp
          rcases List.mem_append.mp hx with hx | hx
          · have hold := inv.emem x hx
            have hslen : sorted.length + 1 ≤ subset.length := by
              have := hElen
              simp at this ⊢
              omega
            by_cases hhit : id ∈ needs_of jobs x ∧ x ∈ subset
            · have hin : x ∈ keys (jobs.filter (fun p => p.2.needs.contains id &&
                  subset.contains p.1)) := (mem_hit_keys_iff hkeys subset id x).mpr hhit
              have hni : (process_pop jobs subset id (indeg, rest)).1 x =
                  dec_wrap (indeg x) := by rw [hdeg' x, if_pos hin]
              rw [hni, hlen1]
              rcases hold with h | ⟨h1, h2⟩
              · rw [h, dec_wrap_zero]
                right
                constructor <;> omega
              · have hpos : 1 ≤ indeg x := by omega
                rw [dec_wrap_of_pos hpos h2]
                right
                constructor <;> omega
            · have hnin : x ∉ keys (jobs.filter (fun p => p.2.needs.contains id &&
                  subset.contains p.1)) :=
                fun hc => hhit ((mem_hit_keys_iff hkeys subset id x).mp hc)
              have hni : (process_pop jobs subset id (indeg, rest)).1 x = indeg x := by
                rw [hdeg' x, if_neg hnin]
              rw [hni, hlen1]
              rcases hold with h | ⟨h1, h2⟩
              · exact Or.inl h
              · right
                constructor <;> omega
          · obtain ⟨hhit, hxsub, hdw0⟩ := (hnew_iff x).mp hx
            have hin : x ∈ keys (jobs.filter (fun p => p.2.needs.contains id &&
                subset.contains p.1)) :=
              (mem_hit_keys_iff hkeys subset id x).mpr ⟨hhit, hxsub⟩
            left
            rw [hdeg' x, if_pos hin]
            exact hdw0
      -- fuel accounting
      have hlen2 : ((sorted ++ [id]) ++ (process_pop jobs subset id (indeg, rest)).2).length
          ≤ subset.length := by
        have hnd1 : ((sorted ++ [id]) ++ (process_pop jobs subset id (indeg, rest)).2).Nodup := by
          rw [hassoc]
          exact List.nodup_append.mpr ⟨inv.nodup, hnew_nodup,
            fun x hx hx2 => hnew_notE x hx2 hx⟩
        refine (List.Nodup.subperm hnd1 ?_).length_le
        intro x hx
        rw [hassoc] at hx
        rcases List.mem_append.mp hx with hx | hx
        · exact hEsub x hx
        · exact ((hnew_iff x).mp hx).2.1
      have hfuel1 : (process_pop jobs subset id (indeg, rest)).2.length +
          (subset.length -
            ((sorted ++ [id]) ++ (process_pop jobs subset id (indeg, rest)).2).length) <
          fuel := by
        rw [hq'] at hlen2 ⊢
        simp at hfuel hlen2 ⊢
        omega
      have hres := ih (process_pop jobs subset id (indeg, rest)).1
        (process_pop jobs subset id (indeg, rest)).2 (sorted ++ [id]) inv1 hfuel1
      rw [hunfold]
      refine ⟨?_, hres.2.1, hres.2.2.1, hres.2.2.2.1, hres.2.2.2.2⟩
      exact List.IsPrefix.trans ⟨[id], rfl⟩ hres.1

end CargoCI

namespace CargoCI

/-- Helper: a rank function that strictly decreases along every need edge
certifies that the job graph is acyclic. -/
theorem acyclic_of_rank (jobs : Jobs) (r : String → Nat)
    (h : ∀ p ∈ jobs, ∀ y ∈ p.2.needs, r y < r p.1) : acyclic jobs := by
  have hedge : ∀ x y, y ∈ needs_of jobs x → r y < r x := by
    intro x y hy
    rw [needs_of] at hy
    cases hget : jobs.get_job x with
    | none =>
      rw [hget] at hy
      simp at hy
    | some j =>
      rw [hget] at hy
      simp at hy
      exact h _ (mem_keys_of_get_job hget).2 y hy
  have hmono : ∀ x y, reaches jobs x y → r y < r x := by
    intro x y hr
    induction hr with
    | direct h1 => exact hedge _ _ h1
    | step h1 _ ih => exact lt_trans ih (hedge _ _ h1)
  intro x hx
  exact lt_irrefl _ (hmono x x hx)

end CargoCI

namespace CargoCI

/-- C1 (amended): for an acyclic job graph with duplicate-free keys and need
sets, and a duplicate-free requested subset of its keys, `topological_sort`
returns a permutation of the subset in which every job appears strictly
after everything it reaches through need chains staying inside the subset. -/
theorem topological_sort_correct (jobs : Jobs) (subset : List String)
    (hkeys : (keys jobs).Nodup) (hsubnd : subset.Nodup)
    (hsubk : ∀ x ∈ subset, x ∈ keys jobs)
    (hneedsnd : ∀ p ∈ jobs, p.2.needs.Nodup)
    (hneedslen : ∀ p ∈ jobs, p.2.needs.length < 2 ^ 64)
    (hsize : subset.length + 2 < 2 ^ 64)
    (hacyc : acyclic jobs) :
    (Jobs.topological_sort jobs subset).Perm subset ∧
    ∀ x y, reaches_within jobs subset x y →
      (Jobs.topological_sort jobs subset).indexOf y <
      (Jobs.topological_sort jobs subset).indexOf x := by
  have hinv0 : KahnInv jobs subset (init_in_degree jobs subset)
      (subset.filter (fun id => init_in_degree jobs subset id == 0)) [] := by
    refine ⟨?_, ?_, ?_, ?_, ?_, ?_⟩
    · simpa using hsubnd.filter _
    · intro x hx
      rw [List.nil_append] at hx
      exact (List.mem_filter.mp hx).1
    · intro x hx hxn
      rw [List.nil_append] at hxn
      have hne : init_in_degree jobs subset x ≠ 0 := by
        intro he
        exact hxn (List.mem_filter.mpr ⟨hx, by simp [he]⟩)
      rw [init_in_degree_eq] at hne
      exact ⟨init_in_degree_eq jobs subset x, by omega⟩
    · intro x hx n hn hns
      have h0 : count_rem jobs subset [] x = 0 := by
        rw [← init_in_degree_eq]
        simpa using (List.mem_filter.mp hx).2
      exact count_rem_zero_elim h0 n hn hns
    · intro x n hx
      simp at hx
    · intro x hx
      rw [List.nil_append] at hx
      left
      simpa using (List.mem_filter.mp hx).2
  have hfuel0 : (subset.filter (fun id => init_in_degree jobs subset id == 0)).length +
      (subset.length -
        ([] ++ subset.filter (fun id => init_in_degree jobs subset id == 0)).length) <
      subset.length + 1 := by
    have hflen := List.length_filter_le (fun id => init_in_degree jobs subset id == 0) subset
    rw [List.nil_append]
    omega
  have hmain := kahn_loop_spec jobs subset hkeys hsubk hneedsnd hneedslen hsize
    (subset.length + 1) (init_in_degree jobs subset)
    (subset.filter (fun id => init_in_degree jobs subset id == 0)) [] hinv0 hfuel0
  have hts : Jobs.topological_sort jobs subset =
      kahn_loop jobs subset (subset.length + 1) (init_in_degree jobs subset)
        (subset.filter (fun id => init_in_degree jobs subset id == 0)) [] := rfl
  rcases hmain with ⟨-, hnd, hsubs, hord, hleft⟩
  rw [← hts] at hnd hsubs hord hleft
  -- every requested job is emitted: otherwise the unemitted requested jobs
  -- would carry an infinite need walk, contradicting acyclicity
  have hall : ∀ x ∈ subset, x ∈ Jobs.topological_sort jobs subset := by
    by_contra hno
    push_neg at hno
    obtain ⟨x0, hx0s, hx0n⟩ := hno
    have hstep2 : ∀ x : String, ∃ y : String,
        x ∈ subset → x ∉ Jobs.topological_sort jobs subset →
        (y ∈ needs_of jobs x ∧ y ∈ subset ∧ y ∉ Jobs.topological_sort jobs subset) := by
      intro x
      by_cases hx : x ∈ subset ∧ x ∉ Jobs.topological_sort jobs subset
      · obtain ⟨y, hy1, hy2, hy3⟩ := count_rem_pos_elim (hleft x hx.1 hx.2)
        exact ⟨y, fun _ _ => ⟨hy1, hy2, hy3⟩⟩
      · exact ⟨x, fun h1 h2 => absurd ⟨h1, h2⟩ hx⟩
    choose f hf using hstep2
    have hginv : ∀ n, f^[n] x0 ∈ subset ∧ f^[n] x0 ∉ Jobs.topological_sort jobs subset := by
      intro n
      induction n with
      | zero => exact ⟨hx0s, hx0n⟩
      | succ n ih =>
        rw [Function.iterate_succ_apply']
        have := hf (f^[n] x0) ih.1 ih.2
        exact ⟨this.2.1, this.2.2⟩
    have hgedge : ∀ n, f^[n + 1] x0 ∈ needs_of jobs (f^[n] x0) := by
      intro n
      rw [Function.iterate_succ_apply']
      exact (hf (f^[n] x0) (hginv n).1 (hginv n).2).1
    have hchain : ∀ k i, reaches jobs (f^[i] x0) (f^[i + k + 1] x0) := by
      intro k
      induction k with
      | zero =>
        intro i
        exact reaches.direct (by rw [Nat.add_zero]; exact hgedge i)
      | succ k ih =>
        intro i
        refine reaches.step (hgedge i) ?_
        have h2 := ih (i + 1)
        have heq : i + 1 + k + 1 = i + (k + 1) + 1 := by omega
        rw [heq] at h2
        exact h2
    have hcard : subset.toFinset.card < (Finset.range (subset.length + 1)).card := by
      rw [Finset.card_range]
      have := subset.toFinset_card_le
      omega
    have hmaps : ∀ i ∈ Finset.range (subset.length + 1),
        f^[i] x0 ∈ subset.toFinset := by
      intro i _
      rw [List.mem_toFinset]
      exact (hginv i).1
    obtain ⟨i, hi, j, hj, hij, hfij⟩ :=
      Finset.exists_ne_map_eq_of_card_lt_of_maps_to hcard hmaps
    rcases Nat.lt_or_ge i j with hlt | hge
    · have hk : j = i + (j - i - 1) + 1 := by omega
      have hr := hchain (j - i - 1) i
      rw [← hk] at hr
      rw [hfij] at hr
      exact hacyc _ hr
    · have hlt2 : j < i := by omega
      have hk : i = j + (i - j - 1) + 1 := by omega
      have hr := hchain (i - j - 1) j
      rw [← hk] at hr
      rw [← hfij] at hr
      exact hacyc _ hr
  have hperm : (Jobs.topological_sort jobs subset).Perm subset := by
    apply List.Subperm.antisymm
    · exact hnd.subperm (fun x hx => hsubs x hx)
    · exact hsubnd.subperm (fun x hx => hall x hx)
  refine ⟨hperm, ?_⟩
  intro x y hr
  induction hr with
  | direct hxs hys hyn => exact hord _ _ (hall _ hxs) hyn hys
  | step hxs hys hyn _ ih => exact lt_trans ih (hord _ _ (hall _ hxs) hyn hys)

end CargoCI

namespace CargoCI

/-- C1 counterexample: in the acyclic chain a → b → c with only a and c
requested, c is a transitive dependency of a and belongs to the requested
subset, yet `topological_sort` emits a strictly before c — the sort only
orders direct needs that lie inside the subset. -/
theorem topological_sort_ignores_indirect_subset_needs :
    acyclic chain_jobs ∧
    reaches chain_jobs "a" "c" ∧
    "c" ∈ (["a", "c"] : List String) ∧
    Jobs.topological_sort chain_jobs ["a", "c"] = ["a", "c"] ∧
    ¬ ((Jobs.topological_sort chain_jobs ["a", "c"]).indexOf "c" <
       (Jobs.topological_sort chain_jobs ["a", "c"]).indexOf "a") := by
  refine ⟨acyclic_of_rank chain_jobs chain_rank (by decide), ?_, by decide, by decide,
    by decide⟩
  exact @reaches.step chain_jobs "a" "b" "c" (by decide)
    (@reaches.direct chain_jobs "b" "c" (by decide))

/-- C1 witness: the amended theorem applied to the chain graph with all three
jobs requested; c is reached from a within the subset, so it is emitted
first. -/
theorem topological_sort_correct_witness :
    (Jobs.topological_sort chain_jobs ["a", "b", "c"]).Perm ["a", "b", "c"] ∧
    (Jobs.topological_sort chain_jobs ["a", "b", "c"]).indexOf "c" <
      (Jobs.topological_sort chain_jobs ["a", "b", "c"]).indexOf "a" := by
  have h := topological_sort_correct chain_jobs ["a", "b", "c"]
    (by decide) (by decide) (by decide) (by decide) (by decide) (by decide)
    (acyclic_of_rank chain_jobs chain_rank (by decide))
  refine ⟨h.1, h.2 "a" "c" ?_⟩
  exact @reaches_within.step chain_jobs ["a", "b", "c"] "a" "b" "c" (by decide) (by decide)
    (by decide)
    (@reaches_within.direct chain_jobs ["a", "b", "c"] "b" "c" (by decide) (by decide)
      (by decide))

end CargoCI

namespace CargoCI

/-- Helper: the id universe of the cycle scan has no duplicates. -/
theorem all_ids_nodup (jobs : Jobs) : (all_ids jobs).Nodup :=
  List.nodup_dedup _

/-- Helper: every key belongs to the id universe. -/
theorem mem_all_ids_of_key {jobs : Jobs} {x : String} (hx : x ∈ keys jobs) :
    x ∈ all_ids jobs := by
  rw [keys] at hx
  rw [all_ids, List.mem_dedup]
  exact List.mem_append_left _ hx

/-- Helper: every referenced need belongs to the id universe. -/
theorem mem_all_ids_of_needs {jobs : Jobs} {x y : String} (hy : y ∈ needs_of jobs x) :
    y ∈ all_ids jobs := by
  rw [needs_of] at hy
  cases hget : jobs.get_job x with
  | none =>
    rw [hget] at hy
    simp at hy
  | some j =>
    rw [hget] at hy
    simp at hy
    rw [all_ids, List.mem_dedup]
    refine List.mem_append_right _ (List.mem_flatten.mpr ⟨j.needs, ?_, hy⟩)
    exact List.mem_map_of_mem _ (mem_keys_of_get_job hget).2

/-- Helper: visiting more ids cannot increase the remaining fuel demand. -/
theorem pot_mono {jobs : Jobs} {V W : List String} (h : ∀ x ∈ V, x ∈ W) :
    Pot jobs W ≤ Pot jobs V := by
  rw [Pot, Pot]
  have hsub : List.Sublist ((all_ids jobs).filter (fun x => !(W.contains x)))
      ((all_ids jobs).filter (fun x => !(V.contains x))) := by
    apply List.monotone_filter_right
    intro a ha
    simp at ha ⊢
    exact fun hc => ha (h a hc)
  exact List.Sublist.sum_le_sum (hsub.map _) (by simp)

/-- Helper: visiting a fresh id frees exactly its fuel share. -/
theorem pot_cons {jobs : Jobs} {V : List String} {id : String}
    (hid : id ∈ all_ids jobs) (hnv : id ∉ V) :
    Pot jobs (id :: V) + (1 + needs_len jobs id) = Pot jobs V := by
  rw [Pot, Pot]
  have hnd : ((all_ids jobs).filter (fun x => !(V.contains x))).Nodup :=
    (all_ids_nodup jobs).filter _
  have hidl : id ∈ (all_ids jobs).filter (fun x => !(V.contains x)) :=
    List.mem_filter.mpr ⟨hid, by simp [hnv]⟩
  have hperm := List.perm_cons_erase hidl
  have hfeq : (all_ids jobs).filter (fun x => !((id :: V).contains x)) =
      ((all_ids jobs).filter (fun x => !(V.contains x))).erase id := by
    rw [hnd.erase_eq_filter]
    rw [List.filter_filter]
    apply List.filter_congr
    intro a _
    by_cases h1 : a = id <;> by_cases h2 : a ∈ V <;> simp [h1, h2]
  rw [hfeq]
  have hsum := (hperm.map (fun x => 1 + needs_len jobs x)).sum_eq
  rw [List.map_cons, List.sum_cons] at hsum
  omega

/-- Helper: the finished ids are closed under reachability. -/
theorem black_reach {jobs : Jobs} {visited path : List String}
    (hb : black_good jobs visited path) :
    ∀ x y, reaches jobs x y → x ∈ visited → x ∉ path → y ∈ visited ∧ y ∉ path := by
  intro x y hr
  induction hr with
  | direct h1 =>
    intro hx hxp
    exact hb _ hx hxp _ h1
  | step h1 _ ih =>
    intro hx hxp
    have h2 := hb _ hx hxp _ h1
    exact ih h2.1 h2.2

/-- Helper: a need edge out of the last chain element extends the chain. -/
theorem needs_chain_snoc {jobs : Jobs} :
    ∀ (l : List String) (x y : String), needs_chain jobs (l ++ [x]) →
      y ∈ needs_of jobs x → needs_chain jobs (l ++ [x, y]) := by
  intro l
  induction l with
  | nil =>
    intro x y _ hy
    simpa [needs_chain] using hy
  | cons a l2 ih =>
    intro x y h hy
    cases l2 with
    | nil =>
      simp only [List.cons_append, List.nil_append, needs_chain] at h ⊢
      exact ⟨h.1, by simpa [needs_chain] using hy⟩
    | cons b l3 =>
      simp only [List.cons_append, needs_chain] at h ⊢
      exact ⟨h.1, by simpa using ih x y (by simpa using h.2) hy⟩

/-- Helper: a chain restricted to a suffix is again a chain. -/
theorem needs_chain_suffix {jobs : Jobs} :
    ∀ (l1 l2 : List String), needs_chain jobs (l1 ++ l2) → needs_chain jobs l2 := by
  intro l1
  induction l1 with
  | nil =>
    intro l2 h
    simpa using h
  | cons a t ih =>
    intro l2 h
    apply ih
    rw [List.cons_append] at h
    cases hw : t ++ l2 with
    | nil => exact trivial
    | cons b w =>
      rw [hw] at h
      exact ((by simpa [needs_chain] using h : b ∈ needs_of jobs a ∧
        needs_chain jobs (b :: w))).2

/-- Helper: every element of a chain reaches the chain end. -/
theorem needs_chain_reaches {jobs : Jobs} :
    ∀ (l : List String) (z : String), needs_chain jobs (l ++ [z]) →
      ∀ x ∈ l, reaches jobs x z := by
  intro l
  induction l with
  | nil =>
    intro z _ x hx
    simp at hx
  | cons a l2 ih =>
    intro z h x hx
    cases l2 with
    | nil =>
      simp only [List.cons_append, List.nil_append, needs_chain] at h
      have hxa : x = a := by simpa using hx
      exact hxa ▸ reaches.direct h.1
    | cons b l3 =>
      simp only [List.cons_append, needs_chain] at h
      have h2 : needs_chain jobs ((b :: l3) ++ [z]) := by simpa using h.2
      rcases List.mem_cons.mp hx with hxa | hxm
      · exact hxa ▸ reaches.step h.1 (ih z h2 b (by simp))
      · exact ih z h2 x hxm

/-- Helper: a chain that closes on one of its own elements is a cycle. -/
theorem cycle_of_chain_mem {jobs : Jobs} {p : List String} {n : String}
    (hn : n ∈ p) (hc : needs_chain jobs (p ++ [n])) : reaches jobs n n := by
  obtain ⟨s, t, hst⟩ := List.append_of_mem hn
  subst hst
  have h2 : needs_chain jobs ((n :: t) ++ [n]) := by
    apply needs_chain_suffix s
    simpa using hc
  exact needs_chain_reaches (n :: t) n h2 n (by simp)

end CargoCI

namespace CargoCI

/-- Helper: any error produced by the cycle scan is the cycle message built
from the current depth-first path, which is a need chain closing on one of
its own elements. -/
theorem detect_cycle_error_shape (jobs : Jobs) : ∀ fuel : Nat,
    (∀ id visited path e, needs_chain jobs (path ++ [id]) →
      detect_cycle jobs fuel id visited path = .error e →
      ∃ p n, e = "circular dependency detected: " ++ join_arrow p ++ " -> " ++ n ∧
        n ∈ p ∧ needs_chain jobs (p ++ [n])) ∧
    (∀ ns visited path e pre cur, path = pre ++ [cur] →
      needs_chain jobs path → (∀ n ∈ ns, n ∈ needs_of jobs cur) →
      detect_cycle_needs jobs fuel ns visited path = .error e →
      ∃ p n, e = "circular dependency detected: " ++ join_arrow p ++ " -> " ++ n ∧
        n ∈ p ∧ needs_chain jobs (p ++ [n])) := by
  intro fuel
  induction fuel with
  | zero =>
    constructor
    · intro id visited path e _ h
      exact Except.noConfusion h
    · intro ns visited path e pre cur _ _ _ h
      exact Except.noConfusion h
  | succ fuel ih =>
    constructor
    · intro id visited path e hchain h
      rw [detect_cycle] at h
      cases hget : jobs.get_job id with
      | none =>
        rw [hget] at h
        exact Except.noConfusion h
      | some job =>
        rw [hget] at h
        have hneq : needs_of jobs id = job.needs := by rw [needs_of, hget]
        refine ih.2 job.needs _ (path ++ [id]) e path id rfl hchain ?_ h
        intro n hn
        rw [hneq]
        exact hn
    · intro ns visited path e pre cur hpath hchain hns h
      cases ns with
      | nil => exact Except.noConfusion h
      | cons n rest =>
        rw [detect_cycle_needs] at h
        by_cases hc : path.contains n = true
        · rw [if_pos hc] at h
          injection h with he
          refine ⟨path, n, he.symm, by simpa using hc, ?_⟩
          have hsnoc := needs_chain_snoc pre cur n (hpath ▸ hchain) (hns n (by simp))
          rw [hpath]
          simpa using hsnoc
        · rw [if_neg hc] at h
          by_cases hv : visited.contains n = true
          · rw [if_pos hv] at h
            exact ih.2 rest visited path e pre cur hpath hchain
              (fun m hm => hns m (List.mem_cons_of_mem _ hm)) h
          · rw [if_neg hv] at h
            have hch2 : needs_chain jobs (path ++ [n]) := by
              have hsnoc := needs_chain_snoc pre cur n (hpath ▸ hchain) (hns n (by simp))
              rw [hpath]
              simpa using hsnoc
            cases hrec : detect_cycle jobs fuel n visited path with
            | error e2 =>
              rw [hrec] at h
              injection h with he
              exact he ▸ ih.1 n visited path e2 hch2 hrec
            | ok visited1 =>
              rw [hrec] at h
              exact ih.2 rest visited1 path e pre cur hpath hchain
                (fun m hm => hns m (List.mem_cons_of_mem _ hm)) h

end CargoCI

namespace CargoCI

/-- Helper: when the cycle scan finishes without an error, everything it
visited is finished: closed under need edges and off every cycle. -/
theorem detect_cycle_ok_spec (jobs : Jobs) : ∀ fuel : Nat,
    (∀ id visited path visited2, DfsInv jobs visited path →
      id ∉ visited → id ∈ all_ids jobs → Pot jobs visited + 1 ≤ fuel →
      detect_cycle jobs fuel id visited path = .ok visited2 →
      (∀ v ∈ visited, v ∈ visited2) ∧ id ∈ visited2 ∧ DfsInv jobs visited2 path) ∧
    (∀ ns visited path visited2 pre cur, DfsInv jobs visited path →
      path = pre ++ [cur] → (∀ n ∈ ns, n ∈ needs_of jobs cur) →
      ns.length + Pot jobs visited + 1 ≤ fuel →
      detect_cycle_needs jobs fuel ns visited path = .ok visited2 →
      (∀ v ∈ visited, v ∈ visited2) ∧ DfsInv jobs visited2 path ∧
      (∀ n ∈ ns, n ∈ visited2 ∧ n ∉ path)) := by
  intro fuel
  induction fuel with
  | zero =>
    constructor
    · intro id visited path visited2 _ _ _ hfuel _
      omega
    · intro ns visited path visited2 pre cur _ _ _ hfuel _
      omega
  | succ fuel ih =>
    constructor
    · intro id visited path visited2 inv hnv hall hfuel h
      have hcontains : visited.contains id = false := by simpa using hnv
      rw [detect_cycle] at h
      simp only [hcontains, Bool.false_eq_true, if_false] at h
      cases hget : jobs.get_job id with
      | none =>
        rw [hget] at h
        injection h with he
        subst he
        refine ⟨fun v hv => List.mem_cons_of_mem _ hv, by simp, ?_, ?_, ?_⟩
        · intro x hx
          exact List.mem_cons_of_mem _ (inv.psub x hx)
        · intro x hx hxp y hy
          rcases List.mem_cons.mp hx with hxi | hxv
          · subst hxi
            rw [needs_of, hget] at hy
            simp at hy
          · have h2 := inv.bgood x hxv hxp y hy
            exact ⟨List.mem_cons_of_mem _ h2.1, h2.2⟩
        · intro x hx hxp hr
          rcases List.mem_cons.mp hx with hxi | hxv
          · subst hxi
            cases hr with
            | direct h1 =>
              rw [needs_of, hget] at h1
              simp at h1
            | step h1 _ =>
              rw [needs_of, hget] at h1
              simp at h1
          · exact inv.bacyc x hxv hxp hr
      | some job =>
        rw [hget] at h
        have hneq : needs_of jobs id = job.needs := by rw [needs_of, hget]
        have hlen : needs_len jobs id = job.needs.length := by rw [needs_len, hget]
        have hidp : id ∉ path := fun hc => hnv (inv.psub id hc)
        have inv1 : DfsInv jobs (id :: visited) (path ++ [id]) := by
          refine ⟨?_, ?_, ?_⟩
          · intro x hx
            rcases List.mem_append.mp hx with h1 | h1
            · exact List.mem_cons_of_mem _ (inv.psub x h1)
            · simp at h1
              simp [h1]
          · intro x hx hxp y hy
            have hxid : x ≠ id := fun he => hxp (he ▸ (by simp))
            have hxv : x ∈ visited := by
              rcases List.mem_cons.mp hx with h1 | h1
              · exact absurd h1 hxid
              · exact h1
            have hxp2 : x ∉ path := fun hc => hxp (List.mem_append_left _ hc)
            have h2 := inv.bgood x hxv hxp2 y hy
            have hyid : y ≠ id := fun he => hnv (he ▸ h2.1)
            refine ⟨List.mem_cons_of_mem _ h2.1, ?_⟩
            intro hc
            rcases List.mem_append.mp hc with h3 | h3
            · exact h2.2 h3
            · simp at h3
              exact hyid h3
          · intro x hx hxp hr
            have hxid : x ≠ id := fun he => hxp (he ▸ (by simp))
            have hxv : x ∈ visited := by
              rcases List.mem_cons.mp hx with h1 | h1
              · exact absurd h1 hxid
              · exact h1
            exact inv.bacyc x hxv (fun hc => hxp (List.mem_append_left _ hc)) hr
        have hpc := pot_cons hall hnv
        have hfuel1 : job.needs.length + Pot jobs (id :: visited) + 1 ≤ fuel := by
          rw [hlen] at hpc
          omega
        have hres := ih.2 job.needs (id :: visited) (path ++ [id]) visited2 path id inv1
          rfl (fun n hn => by rw [hneq]; exact hn) hfuel1 h
        obtain ⟨hmono1, inv2, hblack⟩ := hres
        have hidin : id ∈ visited2 := hmono1 id (by simp)
        refine ⟨fun v hv => hmono1 v (List.mem_cons_of_mem _ hv), hidin, ?_, ?_, ?_⟩
        · intro x hx
          exact inv2.psub x (List.mem_append_left _ hx)
        · intro x hx hxp y hy
          by_cases hxid : x = id
          · subst hxid
            rw [hneq] at hy
            have h2 := hblack y hy
            exact ⟨h2.1, fun hc => h2.2 (List.mem_append_left _ hc)⟩
          · have hxp1 : x ∉ path ++ [id] := by
              intro hc
              rcases List.mem_append.mp hc with h1 | h1
              · exact hxp h1
              · simp at h1
                exact hxid h1
            have h2 := inv2.bgood x hx hxp1 y hy
            exact ⟨h2.1, fun hc => h2.2 (List.mem_append_left _ hc)⟩
        · intro x hx hxp hr
          by_cases hxid : x = id
          · subst hxid
            cases hr with
            | direct h1 =>
              rw [hneq] at h1
              exact (hblack _ h1).2 (by simp)
            | step h1 hr2 =>
              rw [hneq] at h1
              have h2 := hblack _ h1
              have h3 := black_reach inv2.bgood _ _ hr2 h2.1 h2.2
              exact h3.2 (by simp)
          · have hxp1 : x ∉ path ++ [id] := by
              intro hc
              rcases List.mem_append.mp hc with h1 | h1
              · exact hxp h1
              · simp at h1
                exact hxid h1
            exact inv2.bacyc x hx hxp1 hr
    · intro ns visited path visited2 pre cur inv hpath hns hfuel h
      cases ns with
      | nil =>
        rw [detect_cycle_needs] at h
        injection h with he
        subst he
        exact ⟨fun v hv => hv, inv, by simp⟩
      | cons n rest =>
        rw [detect_cycle_needs] at h
        by_cases hc : path.contains n = true
        · rw [if_pos hc] at h
          exact Except.noConfusion h
        · rw [if_neg hc] at h
          have hnp : n ∉ path := by simpa using hc
          by_cases hv : visited.contains n = true
          · rw [if_pos hv] at h
            have hnv : n ∈ visited := by simpa using hv
            have hfuel1 : rest.length + Pot jobs visited + 1 ≤ fuel := by
              simp at hfuel
              omega
            have hres := ih.2 rest visited path visited2 pre cur inv hpath
              (fun m hm => hns m (List.mem_cons_of_mem _ hm)) hfuel1 h
            refine ⟨hres.1, hres.2.1, ?_⟩
            intro m hm
            rcases List.mem_cons.mp hm with hmn | hmr
            · exact hmn ▸ ⟨hres.1 n hnv, hnp⟩
            · exact hres.2.2 m hmr
          · rw [if_neg hv] at h
            have hnv2 : n ∉ visited := by simpa using hv
            have hnall : n ∈ all_ids jobs := mem_all_ids_of_needs (hns n (by simp))
            cases hrec : detect_cycle jobs fuel n visited path with
            | error e2 =>
              rw [hrec] at h
              exact Except.noConfusion h
            | ok visited1 =>
              rw [hrec] at h
              have hfuel2 : Pot jobs visited + 1 ≤ fuel := by
                simp at hfuel
                omega
              obtain ⟨hmono1, hnin1, inv1⟩ :=
                ih.1 n visited path visited1 inv hnv2 hnall hfuel2 hrec
              have hsup : ∀ v ∈ n :: visited, v ∈ visited1 := by
                intro v hv2
                rcases List.mem_cons.mp hv2 with h1 | h1
                · exact h1 ▸ hnin1
                · exact hmono1 v h1
              have hpotle : Pot jobs visited1 ≤ Pot jobs (n :: visited) := pot_mono hsup
              have hpc := pot_cons hnall hnv2
              have hfuel3 : rest.length + Pot jobs visited1 + 1 ≤ fuel := by
                simp at hfuel
                omega
              have hres := ih.2 rest visited1 path visited2 pre cur inv1 hpath
                (fun m hm => hns m (List.mem_cons_of_mem _ hm)) hfuel3 h
              refine ⟨fun v hv3 => hres.1 v (hmono1 v hv3), hres.2.1, ?_⟩
              intro m hm
              rcases List.mem_cons.mp hm with hmn | hmr
              · exact hmn ▸ ⟨hres.1 n hnin1, hnp⟩
              · exact hres.2.2 m hmr

end CargoCI

namespace CargoCI

/-- Helper: `detect_fuel` always exceeds the remaining fuel demand. -/
theorem pot_le (jobs : Jobs) (visited : List String) :
    Pot jobs visited + 1 ≤ detect_fuel jobs := by
  rw [Pot, detect_fuel]
  have hsub : List.Sublist
      (((all_ids jobs).filter (fun x => !(visited.contains x))).map
        (fun x => 1 + needs_len jobs x))
      ((all_ids jobs).map (fun x => 1 + needs_len jobs x)) :=
    (List.filter_sublist _).map _
  have h2 := List.Sublist.sum_le_sum hsub (by simp)
  omega

/-- Helper: when the scan over all remaining start ids succeeds, none of
them lies on a dependency cycle. -/
theorem detect_cycles_from_ok (jobs : Jobs) :
    ∀ (ids visited : List String), DfsInv jobs visited [] →
      (∀ x ∈ ids, x ∈ all_ids jobs) →
      detect_cycles_from jobs ids visited = .ok () →
      ∀ x ∈ ids, ¬ reaches jobs x x := by
  intro ids
  induction ids with
  | nil =>
    intro visited _ _ _ x hx
    simp at hx
  | cons id rest ih =>
    intro visited inv hall h x hx
    rw [detect_cycles_from] at h
    by_cases hc : visited.contains id = true
    · rw [if_pos hc] at h
      rcases List.mem_cons.mp hx with hxi | hxr
      · subst hxi
        exact inv.bacyc x (by simpa using hc) (by simp)
      · exact ih visited inv (fun y hy => hall y (List.mem_cons_of_mem _ hy)) h x hxr
    · rw [if_neg hc] at h
      cases hrec : detect_cycle jobs (detect_fuel jobs) id visited [] with
      | error e =>
        rw [hrec] at h
        exact Except.noConfusion h
      | ok visited1 =>
        rw [hrec] at h
        obtain ⟨hmono, hidin, inv1⟩ := (detect_cycle_ok_spec jobs (detect_fuel jobs)).1
          id visited [] visited1 inv (by simpa using hc) (hall id (by simp))
          (pot_le jobs visited) hrec
        rcases List.mem_cons.mp hx with hxi | hxr
        · subst hxi
          exact inv1.bacyc x hidin (by simp)
        · exact ih visited1 inv1 (fun y hy => hall y (List.mem_cons_of_mem _ hy)) h x hxr

/-- Helper: any error of the scan over the remaining start ids has the
cycle-message shape. -/
theorem detect_cycles_from_error (jobs : Jobs) :
    ∀ (ids visited : List String) (e : String),
      detect_cycles_from jobs ids visited = .error e →
      ∃ p n, e = "circular dependency detected: " ++ join_arrow p ++ " -> " ++ n ∧
        n ∈ p ∧ needs_chain jobs (p ++ [n]) := by
  intro ids
  induction ids with
  | nil =>
    intro visited e h
    exact Except.noConfusion h
  | cons id rest ih =>
    intro visited e h
    rw [detect_cycles_from] at h
    by_cases hc : visited.contains id = true
    · rw [if_pos hc] at h
      exact ih visited e h
    · rw [if_neg hc] at h
      cases hrec : detect_cycle jobs (detect_fuel jobs) id visited [] with
      | error e2 =>
        rw [hrec] at h
        injection h with he
        exact he ▸ (detect_cycle_error_shape jobs (detect_fuel jobs)).1 id visited [] e2
          (by simp [needs_chain]) hrec
      | ok visited1 =>
        rw [hrec] at h
        exact ih visited1 e h

/-- Helper: an id with an outgoing need edge is a key of the job map. -/
theorem reaches_key {jobs : Jobs} {x y : String} (h : reaches jobs x y) :
    x ∈ keys jobs := by
  have hne : needs_of jobs x ≠ [] := by
    cases h with
    | direct h1 => exact List.ne_nil_of_mem h1
    | step h1 _ => exact List.ne_nil_of_mem h1
  rw [needs_of] at hne
  cases hget : jobs.get_job x with
  | none =>
    rw [hget] at hne
    simp at hne
  | some j => exact (mem_keys_of_get_job hget).1

/-- Helper: when the referential and step-id checks pass, validation is
exactly the cycle scan over the keys. -/
theorem validate_eq_detect {jobs : Jobs}
    (hwf : check_jobs_wellformed jobs jobs = .ok ()) :
    Jobs.validate jobs = detect_cycles_from jobs (keys jobs) [] := by
  rw [Jobs.validate, hwf]
  rfl

end CargoCI

namespace CargoCI

/-- C7 (amended): for a job graph that passes the referential and step-id
checks, construction fails iff the graph has a dependency cycle, and every
failure message is "circular dependency detected: " followed by the
depth-first path and the back-edge target: a need chain that closes on one
of its own elements (hence a genuine cycle), possibly preceded by the ids
through which the cycle was entered. -/
theorem validate_cycle_detection (jobs : Jobs)
    (hwf : check_jobs_wellformed jobs jobs = .ok ()) :
    ((∃ x, reaches jobs x x) ↔ ∃ e, Jobs.validate jobs = .error e) ∧
    (∀ e, Jobs.validate jobs = .error e →
      ∃ p n, e = "circular dependency detected: " ++ join_arrow p ++ " -> " ++ n ∧
        n ∈ p ∧ needs_chain jobs (p ++ [n]) ∧ reaches jobs n n) := by
  have hveq := validate_eq_detect hwf
  have hshape : ∀ e, Jobs.validate jobs = .error e →
      ∃ p n, e = "circular dependency detected: " ++ join_arrow p ++ " -> " ++ n ∧
        n ∈ p ∧ needs_chain jobs (p ++ [n]) ∧ reaches jobs n n := by
    intro e he
    rw [hveq] at he
    obtain ⟨p, n, h1, h2, h3⟩ := detect_cycles_from_error jobs (keys jobs) [] e he
    exact ⟨p, n, h1, h2, h3, cycle_of_chain_mem h2 h3⟩
  refine ⟨⟨?_, ?_⟩, hshape⟩
  · intro hex
    by_contra hno
    push_neg at hno
    have hok : Jobs.validate jobs = .ok () := by
      cases hval : Jobs.validate jobs with
      | error e => exact absurd hval (hno e)
      | ok u =>
        cases u
        rfl
    rw [hveq] at hok
    obtain ⟨x, hx⟩ := hex
    have hinv0 : DfsInv jobs [] [] := by
      refine ⟨?_, ?_, ?_⟩
      · intro x hx2
        simp at hx2
      · intro x hx2
        simp at hx2
      · intro x hx2
        simp at hx2
    have hnr := detect_cycles_from_ok jobs (keys jobs) [] hinv0
      (fun y hy => mem_all_ids_of_key hy) hok x (reaches_key hx)
    exact hnr hx
  · intro hex
    obtain ⟨e, he⟩ := hex
    obtain ⟨p, n, _, _, _, h4⟩ := hshape e he
    exact ⟨n, h4⟩

end CargoCI

namespace CargoCI

/-- C7 witness: the amended theorem applied to the three-job cycle
a → b → c → a; validation fails, and the concrete message has the
closing-chain shape. -/
theorem validate_cycle_detection_witness :
    (∃ e, Jobs.validate cyc3_jobs = .error e) ∧
    (∃ p n, "circular dependency detected: a -> b -> c -> a" =
        "circular dependency detected: " ++ join_arrow p ++ " -> " ++ n ∧
      n ∈ p ∧ needs_chain cyc3_jobs (p ++ [n]) ∧ reaches cyc3_jobs n n) := by
  have h := validate_cycle_detection cyc3_jobs (by decide)
  refine ⟨h.1.mp ⟨"a", ?_⟩, h.2 _ (by decide)⟩
  exact @reaches.step cyc3_jobs "a" "b" "a" (by decide)
    (@reaches.step cyc3_jobs "b" "c" "a" (by decide)
      (@reaches.direct cyc3_jobs "c" "a" (by decide)))

/-- C7 counterexample: the graph d → a → b → c → a contains the cycle
a → b → c → a and construction fails, but the reported path
"d -> a -> b -> c -> a" also lists the entry id d, so the reported cycle
path does not consist exactly of the three cycle ids. -/
theorem detect_cycle_path_lists_entry_ids :
    Jobs.validate cyc_entry_jobs =
      .error ("circular dependency detected: " ++
        join_arrow ["d", "a", "b", "c", "a"]) ∧
    reaches cyc_entry_jobs "a" "a" ∧
    "d" ∉ (["a", "b", "c"] : List String) := by
  refine ⟨by decide, ?_, by decide⟩
  exact @reaches.step cyc_entry_jobs "a" "b" "a" (by decide)
    (@reaches.step cyc_entry_jobs "b" "c" "a" (by decide)
      (@reaches.direct cyc_entry_jobs "c" "a" (by decide)))

end CargoCI
